import Mathlib

/-!
Caliper: attribute store, symbol-lookup service and CSV reader/writer.

A shallow embedding of `src/AttributeStore.cpp`, of
`src/services/symbollookup/SymbolLookup.cpp` and of `src/services/csv/Csv.cpp`, with the
properties of the specification proved (or refuted) on it. The definitions come first, the lemmas and
theorems after them.

Conventions of the embedding:

* `std::vector<T>` is a `List T`; `v[i]` is `v[i]?` (an out-of-range index has
  no defined result and is `none`), `push_back` fails once the vector holds
  `max_size` elements, `max_size` being the library's `vector::max_size()`.
* `std::map<K, V>` is the list of its entries in key order, without duplicate
  keys; `find` yields `none` for `end()`.
* `ctx_id_t` / `cali_id_t` is `uint64_t`: a `Nat` reduced modulo `2 ^ 64`
  wherever the source converts into it.
* a member function that can fail returns an `Option`.
* in `Csv.cpp` a `std::string` is the `List Char` of its characters.
-/

namespace Caliper

/-! ## `cali_types.h` -/

/-- The macro `CALI_INV_ID` of `cali_types.h`: `0xFFFFFFFFFFFFFFFF`. -/
def CALI_INV_ID : Nat := 0xFFFFFFFFFFFFFFFF

/-- Number of values of `cali_id_t` (`uint64_t`). -/
def ID_MOD : Nat := 2 ^ 64

/-- Largest value of `size_t` on a 64-bit target; every `vector::max_size()` is at most this. -/
def SIZE_MAX : Nat := 2 ^ 64 - 1

/-- The enumeration `cali_attr_type` of `cali_types.h` (`ctx_attr_type` in `AttributeStore.cpp`). -/
inductive cali_attr_type where
  | CALI_TYPE_INV
  | CALI_TYPE_USR
  | CALI_TYPE_INT
  | CALI_TYPE_UINT
  | CALI_TYPE_STRING
  | CALI_TYPE_ADDR
  | CALI_TYPE_DOUBLE
  | CALI_TYPE_BOOL
  | CALI_TYPE_TYPE
deriving DecidableEq, Repr

/-- The enumerator `CALI_ATTR_DEFAULT` of `cali_attr_properties`. -/
def CALI_ATTR_DEFAULT : Int := 0

/-! ## `Attribute` -/

/-- The value built by `Attribute(id, name, type, properties)` in `AttributeStore::create`. -/
structure Attribute where
  id : Nat
  name : String
  type : cali_attr_type
  properties : Int
deriving DecidableEq, Repr

/-- Modelled from the spec: the constant `Attribute::invalid`, declared in `Attribute.h`
which is not among the sources. The spec gives it "id = all-ones sentinel" and the type
`invalid`; its name is taken empty and its properties default. -/
def Attribute.invalid : Attribute :=
  { id := CALI_INV_ID, name := "", type := cali_attr_type.CALI_TYPE_INV,
    properties := CALI_ATTR_DEFAULT }

/-! ## `std::map<string, ctx_id_t>` and `std::vector` -/

/-- The call `map::find(k)`: the mapped value, `none` for `end()`. -/
def map_find : List (String × Nat) → String → Option Nat
  | [], _ => none
  | (k', v') :: m, k => if k = k' then some v' else map_find m k

/-- The call `map::insert(make_pair(k, v))`: an existing key keeps its entry, a new key is
placed at its position in key order (`std::less<string>`, lexicographic on the characters). -/
def map_insert : List (String × Nat) → String → Nat → List (String × Nat)
  | [], k, v => [(k, v)]
  | (k', v') :: m, k, v =>
    if k = k' then (k', v') :: m
    else if k.data < k'.data then (k, v) :: (k', v') :: m
    else (k', v') :: map_insert m k v

/-- The call `vector::push_back(x)`: fails (`length_error` / `bad_alloc`) on a vector that
already holds `max_size` elements. -/
def push_back {α : Type} (max_size : Nat) (v : List α) (x : α) : Option (List α) :=
  if v.length < max_size then some (v ++ [x]) else none

/-! ## `AttributeStore::AttributeStoreImpl` -/

/-- The data members `attributes` and `namelist` of `AttributeStoreImpl`. -/
structure AttributeStoreImpl where
  attributes : List Attribute
  namelist : List (String × Nat)
deriving DecidableEq, Repr

/-- The store built by the constructor `AttributeStore()`. -/
def AttributeStoreImpl.empty : AttributeStoreImpl :=
  { attributes := [], namelist := [] }

/-- The member `AttributeStoreImpl::create`: the returned Attribute and the store afterwards. -/
def AttributeStoreImpl.create (max_size : Nat) (s : AttributeStoreImpl) (name : String)
    (type : cali_attr_type) (properties : Int) : Option (Attribute × AttributeStoreImpl) :=
  match map_find s.namelist name with
  | some i => (s.attributes[i]?).map (fun a => (a, s))
  | none =>
    let id := s.attributes.length % ID_MOD
    let namelist := map_insert s.namelist name id
    match push_back max_size s.attributes (Attribute.mk id name type properties) with
    | none => none
    | some attributes =>
      (attributes.getLast?).map (fun a => (a, { attributes := attributes, namelist := namelist }))

/-- The member `AttributeStoreImpl::get(ctx_id_t id)`. -/
def AttributeStoreImpl.get_id (s : AttributeStoreImpl) (id : Nat) : Option Attribute :=
  if id < s.attributes.length then s.attributes[id]? else some Attribute.invalid

/-- The member `AttributeStoreImpl::get(const std::string& name)`. -/
def AttributeStoreImpl.get_name (s : AttributeStoreImpl) (name : String) : Option Attribute :=
  match map_find s.namelist name with
  | none => some Attribute.invalid
  | some i => s.attributes[i]?

/-- One call on the store's interface. -/
inductive Call where
  | create (name : String) (type : cali_attr_type) (properties : Int)
  | get_id (id : Nat)
  | get_name (name : String)
deriving DecidableEq, Repr

/-- One call executed on a store: the returned Attribute and the store afterwards
(`get` is a `const` member and leaves the store as it is). -/
def AttributeStoreImpl.call (max_size : Nat) (s : AttributeStoreImpl) :
    Call → Option (Attribute × AttributeStoreImpl)
  | Call.create n t p => s.create max_size n t p
  | Call.get_id i => (s.get_id i).map (fun a => (a, s))
  | Call.get_name n => (s.get_name n).map (fun a => (a, s))

/-- A sequence of calls executed in order: the returned Attributes, in call order, and the
final store; `none` as soon as one call fails. -/
def AttributeStoreImpl.run (max_size : Nat) :
    AttributeStoreImpl → List Call → Option (List Attribute × AttributeStoreImpl)
  | s, [] => some ([], s)
  | s, c :: cs =>
    match s.call max_size c with
    | none => none
    | some (a, s') =>
      match AttributeStoreImpl.run max_size s' cs with
      | none => none
      | some (as, s'') => some (a :: as, s'')

/-- The `create` calls of a sequence of (name, type, properties) arguments. -/
def create_calls (cs : List (String × cali_attr_type × Int)) : List Call :=
  cs.map (fun c => Call.create c.1 c.2.1 c.2.2)

/-- The names passed to the `create` calls of a sequence of calls. -/
def created_names : List Call → List String
  | [] => []
  | Call.create n _ _ :: cs => n :: created_names cs
  | _ :: cs => created_names cs

/-- A store is reachable when some sequence of `create` and `get` calls leads to it from
the store the constructor builds. -/
def AttributeStoreImpl.Reachable (max_size : Nat) (s : AttributeStoreImpl) : Prop :=
  ∃ calls results, AttributeStoreImpl.run max_size AttributeStoreImpl.empty calls = some (results, s)

/-- The registry invariant: `attributes[i]` has id `i` and is found under its name, every
entry of `namelist` points at the attribute of that name, `namelist` has one entry per
attribute and no key twice, and the vector is within its largest size. -/
structure AttributeStoreImpl.Consistent (max_size : Nat) (s : AttributeStoreImpl) : Prop where
  size_le : s.attributes.length ≤ max_size
  attr_ok : ∀ i a, s.attributes[i]? = some a → a.id = i ∧ map_find s.namelist a.name = some i
  name_ok : ∀ n i, map_find s.namelist n = some i → ∃ a, s.attributes[i]? = some a ∧ a.name = n
  size_eq : s.namelist.length = s.attributes.length
  keys_nodup : (s.namelist.map Prod.fst).Nodup

/-- The Attributes that `create` calls with fresh, pairwise distinct names return on a store
holding `k` attributes: ids `k`, `k + 1`, ... with the arguments of each call. -/
def fresh_results (k : Nat) : List (String × cali_attr_type × Int) → List Attribute
  | [] => []
  | c :: cs => ⟨k, c.1, c.2.1, c.2.2⟩ :: fresh_results (k + 1) cs

/-! ## `SymbolLookup.cpp` -/

/-- Modelled from the spec: the class `Variant` (`Variant.h` is not among the sources), "a
tagged value holder for one of a small closed set of primitive types"; a string carries its
characters, an integer its value. -/
inductive Variant where
  | inv
  | usr (bytes : List Nat)
  | int (i : Int)
  | uint (n : Nat)
  | str (s : String)
  | addr (n : Nat)
  | bool (b : Bool)
  | type (t : cali_attr_type)
deriving DecidableEq, Repr

/-- Modelled from the spec: `Variant::to_uint`, the unsigned value of an unsigned-integer or
address Variant, 0 for the other types. -/
def Variant.to_uint : Variant → Nat
  | Variant.uint n => n
  | Variant.addr n => n
  | _ => 0

/-- Modelled from the spec: a `const Node*` (`Node.h` is not among the sources): the null
pointer, or a node `{id, attribute id, value, parent}`. A parent chain is finite and ends
at the null pointer above the root. -/
inductive Node where
  | null
  | node (id : Nat) (attribute_id : Nat) (data : Variant) (parent : Node)
deriving DecidableEq, Repr

/-- The accessor `Node::attribute` (the id of the node's attribute), read through a non-null
pointer. -/
def Node.attribute_id : Node → Nat
  | Node.null => CALI_INV_ID
  | Node.node _ a _ _ => a

/-- The accessor `Node::data`, read through a non-null pointer. -/
def Node.data : Node → Variant
  | Node.null => Variant.inv
  | Node.node _ _ d _ => d

/-- The accessor `Node::parent`. -/
def Node.parent : Node → Node
  | Node.null => Node.null
  | Node.node _ _ _ p => p

/-- Modelled from the spec: the class `Entry`, "either a reference to a Context Tree node
or an immediate (attribute, value) pair", or empty when `SnapshotRecord::get` finds
nothing. -/
inductive Entry where
  | empty
  | ref (node : Node)
  | immediate (attr : Nat) (value : Variant)
deriving DecidableEq, Repr

/-- The accessor `Entry::node`: the referenced node, null for the other entries. -/
def Entry.node : Entry → Node
  | Entry.ref n => n
  | _ => Node.null

/-- The accessor `Entry::is_immediate`. -/
def Entry.is_immediate : Entry → Bool
  | Entry.immediate _ _ => true
  | _ => false

/-- The accessor `Entry::value`: the value of the referenced node or of the pair. -/
def Entry.value : Entry → Variant
  | Entry.ref n => n.data
  | Entry.immediate _ v => v
  | Entry.empty => Variant.inv

/-- Modelled from the spec: the snapshot handed to the pre-flush callback, through its
accessor `get(attribute) → Entry`. -/
structure SnapshotRecord where
  get : Attribute → Entry

/-- One `Statement` of the symbol table: the file and line of `getFile` / `getLine`. -/
structure Statement where
  file : String
  line : Nat
deriving DecidableEq, Repr

/-- The object behind `m_symtab`, through the one call made on it: `getSourceLines(statements,
address)` yields its return flag and the statements it stores. -/
structure Symtab where
  getSourceLines : Nat → Bool × List Statement

/-- The struct `SymbolLookup::SymbolAttributes`. -/
structure SymbolAttributes where
  file_attr : Attribute
  line_attr : Attribute
  func_attr : Attribute
deriving DecidableEq, Repr

/-- The data members of `SymbolLookup` that the methods below use; `m_sym_attr_map` lists
the entries of the `std::map` in iteration order, `m_symtab` is `none` for a null pointer. -/
structure SymbolLookup where
  m_sym_attr_map : List (Attribute × SymbolAttributes)
  m_addr_attr_names : List String
  m_symtab : Option Symtab
  m_num_lookups : Nat
  m_num_failed : Nat

/-- Number of values of `unsigned`, the type of the two counters. -/
def UINT_MOD : Nat := 2 ^ 32

/-- The method `SymbolLookup::add_symbol_attributes`, `symtab` being the object `m_symtab`
points to: the object with its counters updated and the vectors `attr` and `data` after
the four `push_back` calls. The copy of the file name through the memory pool keeps its
characters. -/
def SymbolLookup.add_symbol_attributes (sl : SymbolLookup) (symtab : Symtab) (e : Entry)
    (sym_attr : SymbolAttributes) (attr : List Attribute) (data : List Variant) :
    SymbolLookup × List Attribute × List Variant :=
  let (ret, statements) := symtab.getSourceLines e.value.to_uint
  let sl1 := { sl with m_num_lookups := (sl.m_num_lookups + 1) % UINT_MOD }
  let found := ret && decide (statements.length > 0)
  let filename := if found then (statements.head?.map Statement.file).getD "UNKNOWN" else "UNKNOWN"
  let lineno := if found then (statements.head?.map Statement.line).getD 0 % ID_MOD else 0
  let sl2 := if found then sl1 else { sl1 with m_num_failed := (sl1.m_num_failed + 1) % UINT_MOD }
  let attr := attr ++ [sym_attr.file_attr]
  let attr := attr ++ [sym_attr.line_attr]
  let data := data ++ [Variant.str filename]
  let data := data ++ [Variant.uint lineno]
  (sl2, attr, data)

/-- The loop `for (node = e.node(); node; node = node->parent())` of `process_snapshot` for
the map entry `(key, sym_attr)`, started at `node`. -/
def SymbolLookup.unpack_nodes (symtab : Symtab) (key : Attribute) (sym_attr : SymbolAttributes) :
    Node → SymbolLookup × List Attribute × List Variant →
    SymbolLookup × List Attribute × List Variant
  | Node.null, st => st
  | Node.node i a d p, st =>
    let st1 :=
      if a = key.id then
        st.1.add_symbol_attributes symtab (Entry.ref (Node.node i a d p)) sym_attr st.2.1 st.2.2
      else st
    SymbolLookup.unpack_nodes symtab key sym_attr p st1

/-- The loop `for (auto it : sym_map)` of `process_snapshot`. -/
def SymbolLookup.unpack_map (symtab : Symtab) (snapshot : SnapshotRecord) :
    List (Attribute × SymbolAttributes) → SymbolLookup × List Attribute × List Variant →
    SymbolLookup × List Attribute × List Variant
  | [], st => st
  | it :: rest, st =>
    let e := snapshot.get it.1
    let st1 :=
      if e.node ≠ Node.null then
        SymbolLookup.unpack_nodes symtab it.1 it.2 e.node st
      else if e.is_immediate then
        st.1.add_symbol_attributes symtab e it.2 st.2.1 st.2.2
      else st
    SymbolLookup.unpack_map symtab snapshot rest st1

/-- The method `SymbolLookup::process_snapshot`: the object afterwards and the vectors
`attr` and `data` handed to `make_entrylist` (with `attr.size()` as the count), `none` when
`make_entrylist` is not called. -/
def SymbolLookup.process_snapshot (sl : SymbolLookup) (snapshot : SnapshotRecord) :
    SymbolLookup × Option (List Attribute × List Variant) :=
  match sl.m_symtab with
  | none => (sl, none)
  | some symtab =>
    if sl.m_sym_attr_map.isEmpty then (sl, none)
    else
      let sym_map := sl.m_sym_attr_map
      let st := SymbolLookup.unpack_map symtab snapshot sym_map (sl, [], [])
      let attr := st.2.1.reverse
      let data := st.2.2.reverse
      if attr.length > 0 then (st.1, some (attr, data)) else (st.1, none)

/-- The nodes from `node` up to the root, innermost first: the order in which the loop over
`node->parent()` visits them. -/
def Node.chain : Node → List Node
  | Node.null => []
  | Node.node i a d p => Node.node i a d p :: Node.chain p

/-- The nodes of the chain of `node` that carry the attribute `id`, innermost first. -/
def Node.carriers (id : Nat) (node : Node) : List Node :=
  node.chain.filter (fun n => decide (n.attribute_id = id))

/-- The file name `add_symbol_attributes` stores for the address `addr`. -/
def Symtab.source_file (symtab : Symtab) (addr : Nat) : String :=
  let r := symtab.getSourceLines addr
  if r.1 && decide (r.2.length > 0) then (r.2.head?.map Statement.file).getD "UNKNOWN"
  else "UNKNOWN"

/-- The line number `add_symbol_attributes` stores for the address `addr`. -/
def Symtab.source_line (symtab : Symtab) (addr : Nat) : Nat :=
  let r := symtab.getSourceLines addr
  if r.1 && decide (r.2.length > 0) then (r.2.head?.map Statement.line).getD 0 % ID_MOD
  else 0

/-- The symbol table of the examples: `a.c:42` at address 4096, `b.c:7` at address 8192,
nothing elsewhere. -/
def example_symtab : Symtab :=
  { getSourceLines := fun addr =>
      if addr = 4096 then (true, [⟨"a.c", 42⟩])
      else if addr = 8192 then (true, [⟨"b.c", 7⟩])
      else (false, []) }

/-- The address attribute of the examples. -/
def example_addr_attr : Attribute := ⟨3, "callsite", cali_attr_type.CALI_TYPE_ADDR, 0⟩

/-- The symbol attributes `check_attribute` creates for `example_addr_attr`. -/
def example_sym_attr : SymbolAttributes :=
  { file_attr := ⟨4, "source.file#callsite", cali_attr_type.CALI_TYPE_STRING, 0⟩,
    line_attr := ⟨5, "source.line#callsite", cali_attr_type.CALI_TYPE_UINT, 0⟩,
    func_attr := ⟨6, "source.function#callsite", cali_attr_type.CALI_TYPE_STRING, 0⟩ }

/-- The outer level of the examples: `callsite=4096` under the root node. -/
def example_outer : Node :=
  Node.node 10 3 (Variant.addr 4096) (Node.node 0 CALI_INV_ID Variant.inv Node.null)

/-- The context path of the examples, by its innermost node: `callsite=8192` (inner) under
`phase="solve"` under `callsite=4096` (outer) under the root. -/
def example_node : Node :=
  Node.node 12 3 (Variant.addr 8192) (Node.node 11 2 (Variant.str "solve") example_outer)

/-- The service object of the examples: one registered address attribute. -/
def example_lookup : SymbolLookup :=
  { m_sym_attr_map := [(example_addr_attr, example_sym_attr)],
    m_addr_attr_names := ["callsite"],
    m_symtab := some example_symtab,
    m_num_lookups := 0,
    m_num_failed := 0 }

/-- The snapshot of the examples: the node reference for every attribute asked. -/
def example_snapshot : SnapshotRecord := { get := fun _ => Entry.ref example_node }

/-- The attributes `add_symbol_attributes` appends to `attr` for one entry, in push order. -/
def SymbolAttributes.level_attr (sym_attr : SymbolAttributes) : List Attribute :=
  [sym_attr.file_attr, sym_attr.line_attr]

/-- The values `add_symbol_attributes` appends to `data` for the node `n`, in push order:
the file name as a string, then the line number as an unsigned integer. -/
def Symtab.level_data (symtab : Symtab) (n : Node) : List Variant :=
  [Variant.str (symtab.source_file n.data.to_uint),
   Variant.uint (symtab.source_line n.data.to_uint)]

/-! ## `AttributeStore::create` called from two threads -/

/-- Modelled from the spec: the class `SigsafeRWLock` (`SigsafeRWLock.h` is not among the
sources), a reader-writer lock: "many concurrent readers, at most one concurrent writer".
Its state is the number of readers inside and whether a writer is inside. -/
structure SigsafeRWLock where
  readers : Nat
  writer : Bool
deriving DecidableEq, Repr

/-- Modelled from the spec: `SigsafeRWLock::wlock`, the exclusive (write) lock: the caller
gets in only when nobody is inside; `none` means the caller is kept waiting. -/
def SigsafeRWLock.wlock (l : SigsafeRWLock) : Option SigsafeRWLock :=
  if l.writer = false ∧ l.readers = 0 then some { l with writer := true } else none

/-- Modelled from the spec: `SigsafeRWLock::unlock`: the writer inside leaves, or else one
reader does. -/
def SigsafeRWLock.unlock (l : SigsafeRWLock) : SigsafeRWLock :=
  if l.writer then { l with writer := false } else { l with readers := l.readers - 1 }

/-- Lines 26 to 34 of `AttributeStoreImpl::create`, after `it = namelist.find(name)` has been
evaluated: the check of `it` and the insertion. -/
def AttributeStoreImpl.create_after_find (max_size : Nat) (s : AttributeStoreImpl)
    (name : String) (type : cali_attr_type) (properties : Int) (it : Option Nat) :
    Option (Attribute × AttributeStoreImpl) :=
  match it with
  | some i => (s.attributes[i]?).map (fun a => (a, s))
  | none =>
    let id := s.attributes.length % ID_MOD
    let namelist := map_insert s.namelist name id
    match push_back max_size s.attributes (Attribute.mk id name type properties) with
    | none => none
    | some attributes =>
      (attributes.getLast?).map (fun a => (a, { attributes := attributes, namelist := namelist }))

/-- Where a thread stands in its call of `AttributeStore::create` (lines 87 to 94). -/
inductive Pc where
  /-- Before `mP->lock.wlock()`. -/
  | start
  /-- Inside the lock, before line 24 of `mP->create`. -/
  | locked
  /-- After `it = namelist.find(name)`, before the check of `it`. -/
  | checked (it : Option Nat)
  /-- The call `mP->create` has returned `attr`; before `mP->lock.unlock()`. -/
  | created (attr : Attribute)
  /-- The call `AttributeStore::create` has returned `attr`. -/
  | done (attr : Attribute)
deriving DecidableEq, Repr

/-- Whether the thread is between `wlock()` and `unlock()`. -/
def Pc.in_lock : Pc → Bool
  | Pc.locked => true
  | Pc.checked _ => true
  | Pc.created _ => true
  | _ => false

/-- Whether the thread's call has returned. -/
def Pc.is_done : Pc → Bool
  | Pc.done _ => true
  | _ => false

/-- The store, its lock and the two threads (`false` and `true`) calling
`AttributeStore::create`. -/
structure Sys where
  store : AttributeStoreImpl
  lock : SigsafeRWLock
  pc : Bool → Pc

/-- Both threads before their call, on the store `s` with nobody inside the lock. -/
def Sys.init (s : AttributeStoreImpl) : Sys :=
  { store := s, lock := { readers := 0, writer := false }, pc := fun _ => Pc.start }

/-- One step of thread `t` through `AttributeStore::create(name, type, properties)`; `none`
when the thread cannot move: it waits at `wlock()`, its call has returned, or `mP->create`
fails. -/
def Sys.step (max_size : Nat) (name : String) (type : cali_attr_type) (properties : Int)
    (st : Sys) (t : Bool) : Option Sys :=
  let set := fun (p : Pc) (t' : Bool) => if t' = t then p else st.pc t'
  match st.pc t with
  | Pc.start =>
    match st.lock.wlock with
    | none => none
    | some l => some { st with lock := l, pc := set Pc.locked }
  | Pc.locked =>
    some { st with pc := set (Pc.checked (map_find st.store.namelist name)) }
  | Pc.checked it =>
    match st.store.create_after_find max_size name type properties it with
    | none => none
    | some (a, s') => some { st with store := s', pc := set (Pc.created a) }
  | Pc.created a =>
    some { st with lock := st.lock.unlock, pc := set (Pc.done a) }
  | Pc.done _ => none

/-- An interleaving: the threads step in the order `sched` lists them; `none` when a listed
thread cannot move at its turn. -/
def Sys.exec (max_size : Nat) (name : String) (type : cali_attr_type) (properties : Int) :
    Sys → List Bool → Option Sys
  | st, [] => some st
  | st, t :: sched =>
    match st.step max_size name type properties t with
    | none => none
    | some st' => Sys.exec max_size name type properties st' sched

/-- The Attribute a first `create(name, type, properties)` builds on the store `s0`. -/
def first_attr (s0 : AttributeStoreImpl) (name : String) (type : cali_attr_type)
    (properties : Int) : Attribute :=
  ⟨s0.attributes.length, name, type, properties⟩

/-- The store `s0` after a first `create(name, type, properties)`. -/
def store_after (s0 : AttributeStoreImpl) (name : String) (type : cali_attr_type)
    (properties : Int) : AttributeStoreImpl :=
  { attributes := s0.attributes ++ [first_attr s0 name type properties],
    namelist := map_insert s0.namelist name s0.attributes.length }

/-- The invariant of the two-thread system started on `s0`: the store is `s0` or `s0` with
the one new Attribute; no reader is inside the lock and a writer is inside exactly when a
thread is between `wlock()` and `unlock()`, which at most one thread is; an iterator held by
a thread is what `find` gives on the current store; and a thread past `mP->create` holds
the one new Attribute, which the store then contains. -/
structure Sys.Inv (s0 : AttributeStoreImpl) (name : String) (type : cali_attr_type)
    (properties : Int) (st : Sys) : Prop where
  store : st.store = s0 ∨ st.store = store_after s0 name type properties
  readers : st.lock.readers = 0
  writer : st.lock.writer = true ↔ ∃ t, (st.pc t).in_lock = true
  excl : ∀ t t', (st.pc t).in_lock = true → (st.pc t').in_lock = true → t = t'
  checked : ∀ t it, st.pc t = Pc.checked it → it = map_find st.store.namelist name
  created : ∀ t a, st.pc t = Pc.created a →
    a = first_attr s0 name type properties ∧ st.store = store_after s0 name type properties
  done : ∀ t a, st.pc t = Pc.done a →
    a = first_attr s0 name type properties ∧ st.store = store_after s0 name type properties

/-! ## `SymbolLookup.cpp`: the calls of `add_symbol_attributes` of one snapshot -/

/-- The calls of `add_symbol_attributes` that the map loop of `process_snapshot` makes, in
call order, each by the symbol attributes passed and the address looked up: one per node
of the chain carrying the key for a node reference (innermost first), one for an immediate
entry, none otherwise. -/
def SymbolLookup.lookups (snapshot : SnapshotRecord) :
    List (Attribute × SymbolAttributes) → List (SymbolAttributes × Nat)
  | [] => []
  | it :: rest =>
    (if (snapshot.get it.1).node ≠ Node.null then
        ((snapshot.get it.1).node.carriers it.1.id).map (fun n => (it.2, n.data.to_uint))
      else if (snapshot.get it.1).is_immediate then [(it.2, (snapshot.get it.1).value.to_uint)]
      else []) ++ SymbolLookup.lookups snapshot rest

/-- The two (attribute, value) pairs that one call of `add_symbol_attributes` appends, in
push order: the file attribute with the file name as a string, then the line attribute with
the line number as an unsigned integer. -/
def Symtab.pushed_pairs (symtab : Symtab) (c : SymbolAttributes × Nat) :
    List (Attribute × Variant) :=
  [(c.1.file_attr, Variant.str (symtab.source_file c.2)),
   (c.1.line_attr, Variant.uint (symtab.source_line c.2))]

/-! ## `Csv.cpp`

A `std::string` is the list of its characters. -/

/-- The character `\` (code 92). -/
def backslash : Char := Char.ofNat 92

/-- The double quote character (code 34). -/
def dquote : Char := Char.ofNat 34

/-- The data members of `CsvSpec`. -/
structure CsvSpec where
  m_sep : List Char
  m_delim : List Char
  m_esc : Char
  m_esc_chars : List Char
deriving DecidableEq, Repr

/-- The object `CaliperCsvSpec`, with the member initialisers of `CsvSpec`: separator `,`,
delimiter `:`, escape character `\`, characters to escape `\` and `,`. -/
def CaliperCsvSpec : CsvSpec :=
  { m_sep := [','], m_delim := [':'], m_esc := backslash, m_esc_chars := [backslash, ','] }

/-- The member `CsvSpec::write_string`: the characters written to `os` for the `size`
characters of `str`. -/
def CsvSpec.write_string (spec : CsvSpec) : List Char → List Char
  | [] => []
  | c :: str =>
    (if c ∈ spec.m_esc_chars then [spec.m_esc, c] else [c]) ++ CsvSpec.write_string spec str

/-- The library call `isspace` in the "C" locale: space, `\t`, `\n`, `\v`, `\f`, `\r`. -/
def isspace (c : Char) : Bool :=
  c.toNat = 32 || (9 ≤ c.toNat && c.toNat ≤ 13)

/-- The loops of `CsvSpec::split` from the iterator position on: `in_string` tells whether
`it` is inside the inner loop that reads a quoted string, `list` are the characters from
`*it` on, `vec` and `str` the two local variables. The result is `vec` after the final
`push_back`; it is `none` when an iterator is incremented past `list.end()`, which happens
when a quoted string is not closed or the escape character is the last character. -/
def CsvSpec.split_loop (spec : CsvSpec) (sep : Char) :
    Bool → List Char → List (List Char) → List Char → Option (List (List Char))
  | false, [], vec, str => some (vec ++ [str])
  | false, c :: list, vec, str =>
    if c = sep then CsvSpec.split_loop spec sep false list (vec ++ [str]) []
    else if c = dquote then CsvSpec.split_loop spec sep true list vec str
    else if !isspace c then CsvSpec.split_loop spec sep false list vec (str ++ [c])
    else CsvSpec.split_loop spec sep false list vec str
  | true, [], _, _ => none
  | true, [c], vec, str =>
    if c = dquote then CsvSpec.split_loop spec sep false [] vec str
    else none
  | true, c :: d :: list, vec, str =>
    if c = dquote then CsvSpec.split_loop spec sep false (d :: list) vec str
    else if c = spec.m_esc then CsvSpec.split_loop spec sep true list vec (str ++ [d])
    else CsvSpec.split_loop spec sep true (d :: list) vec str

/-- The member `CsvSpec::split`. -/
def CsvSpec.split (spec : CsvSpec) (list : List Char) (sep : Char) :
    Option (List (List Char)) :=
  CsvSpec.split_loop spec sep false list [] []

/-- The value of a hexadecimal digit, `none` for another character. -/
def hex_digit (c : Char) : Option Nat :=
  if 48 ≤ c.toNat ∧ c.toNat ≤ 57 then some (c.toNat - 48)
  else if 97 ≤ c.toNat ∧ c.toNat ≤ 102 then some (c.toNat - 87)
  else if 65 ≤ c.toNat ∧ c.toNat ≤ 70 then some (c.toNat - 55)
  else none

/-- Number of values of `unsigned long` (64 bit). -/
def ULONG_MOD : Nat := 2 ^ 64

/-- The library call `std::stoul(s, 0, 16)`: leading white space, an optional sign, an
optional `0x` or `0X` before a hexadecimal digit, then the longest run of hexadecimal
digits; `none` stands for the exceptions `invalid_argument` (no digit) and `out_of_range`
(value not below `2 ^ 64`). A negative sign negates in `unsigned long`. -/
def stoul16 (s : List Char) : Option Nat :=
  let s1 := (s.takeWhile (fun c => c.toNat ≠ 0)).dropWhile isspace
  let signed : Bool × List Char :=
    match s1 with
    | c :: r => if c.toNat = 45 then (true, r) else if c.toNat = 43 then (false, r)
                else (false, s1)
    | [] => (false, s1)
  let s3 : List Char :=
    match signed.2 with
    | z :: x :: d :: r =>
      if z.toNat = 48 ∧ (x.toNat = 120 ∨ x.toNat = 88) ∧ (hex_digit d).isSome then d :: r
      else signed.2
    | _ => signed.2
  let digits := (s3.takeWhile (fun c => (hex_digit c).isSome)).filterMap hex_digit
  if digits = [] then none
  else
    let v := digits.foldl (fun acc d => acc * 16 + d) 0
    if ULONG_MOD ≤ v then none
    else some (if signed.1 then (ULONG_MOD - v) % ULONG_MOD else v)

/-- The loop of the case `CALI_TYPE_USR` of `CsvSpec::read_data` over the fields that
`split` returned: an empty field is skipped, another one is converted with `std::stoul`
and cast to `unsigned char`. -/
def read_usr_fields : List (List Char) → Option (List Nat)
  | [] => some []
  | s :: fields =>
    if s.length ≠ 0 then
      match stoul16 s with
      | none => none
      | some v =>
        match read_usr_fields fields with
        | none => none
        | some data => some (v % 256 :: data)
    else read_usr_fields fields

/-- The case `CALI_TYPE_USR` of the member `CsvSpec::read_data`; `m_delim[0]` of an empty
`m_delim` is the null character. -/
def CsvSpec.read_data_usr (spec : CsvSpec) (str : List Char) : Option (List Nat) :=
  match spec.split str (spec.m_delim.headD (Char.ofNat 0)) with
  | none => none
  | some fields => read_usr_fields fields

/-- The loop of the member `CsvSpec::write_record` over the entries `(key, text of the
value)` of the record, `count` being the number of entries already written. -/
def CsvSpec.write_entries (spec : CsvSpec) : Nat → List (List Char × List Char) → List Char
  | _, [] => []
  | count, e :: record =>
    (if count ≠ 0 then spec.m_sep else []) ++ e.1 ++ ['='] ++ spec.write_string e.2 ++
      CsvSpec.write_entries spec (count + 1) record

/-- The member `CsvSpec::write_record`: the characters written to `os`; `endl` is the
newline character. -/
def CsvSpec.write_record (spec : CsvSpec) (record : List (List Char × List Char)) :
    List Char :=
  CsvSpec.write_entries spec 0 record ++ (if record.length ≠ 0 then [Char.ofNat 10] else [])

/-- The decoder of escaped text, as the words say: scan left to right; on the escape
character drop it and copy the next character literally; copy every other character. -/
def CsvSpec.decode (spec : CsvSpec) : List Char → List Char
  | [] => []
  | [c] => if c = spec.m_esc then [] else [c]
  | c :: d :: out =>
    if c = spec.m_esc then d :: CsvSpec.decode spec out
    else c :: CsvSpec.decode spec (d :: out)

/-- Every `,` of `out` has the escape character `\` right before it. -/
def commas_escaped (out : List Char) : Prop :=
  ∀ i, out[i]? = some ',' → ∃ j, i = j + 1 ∧ out[j]? = some backslash

/-- The pieces of `list` between consecutive occurrences of `sep`, as the words say: the
piece before the first separator, the pieces between two separators, and the piece after
the last one. -/
def segments (sep : Char) : List Char → List (List Char)
  | [] => [[]]
  | c :: list =>
    if c = sep then [] :: segments sep list
    else (c :: (segments sep list).headD []) :: (segments sep list).tail

/-- A character that `split` copies into the current field: not the separator, not the
double quote, not white space. -/
def plain (sep c : Char) : Prop := c ≠ sep ∧ c ≠ dquote ∧ isspace c = false

/-- The text of a byte as a hexadecimal number, lower case, without leading zeros. -/
def hex_text (b : Nat) : List Char := Nat.toDigits 16 b

/-- The text of user-defined data as the words say: each byte as a hexadecimal number
followed by the delimiter `:`. -/
def usr_text (bytes : List Nat) : List Char :=
  bytes.flatMap (fun b => hex_text b ++ [':'])

/-- The line of the values `vs` as the words say: `write_string` of each value, joined
with the separator. -/
def CsvSpec.join_values (spec : CsvSpec) (vs : List (List Char)) : List Char :=
  List.intercalate spec.m_sep (vs.map spec.write_string)

/-- The text of one field of user-defined data: a byte as a hexadecimal number, or nothing
for an empty field. -/
def field_text : Option Nat → List Char
  | some b => hex_text b
  | none => []

/-! ## `SymbolLookup.cpp`: `check_attribute`, `post_init_cb` and `finish_log` -/

/-- Modelled from the spec: the runtime object behind `Caliper* c` (`Caliper.h` is not among
the sources), through the two calls the service makes on it. `get_attribute` "returns the
invalid sentinel" for an unknown name. `create_attribute` is taken by the Attribute it
returns; what it does to the registry, and the attribute-created event it fires (a call of
`check_attribute` of its own), are not part of that value. -/
structure Caliper where
  get_attribute : String → Attribute
  create_attribute : String → cali_attr_type → Int → Attribute

/-- Modelled from the spec: the runtime whose `get_attribute` and `create_attribute`
"delegate to the Attribute Registry", for the registry `s`. -/
def Caliper.of_store (max_size : Nat) (s : AttributeStoreImpl) : Caliper :=
  { get_attribute := fun name => (s.get_name name).getD Attribute.invalid,
    create_attribute := fun name type properties =>
      ((s.create max_size name type properties).map Prod.fst).getD Attribute.invalid }

/-- Modelled from the spec: whether `attr != Attribute::invalid`; the comparison operators
of `Attribute` are absent from the sources and compare the ids, "an integer identity
(unique)". -/
def Attribute.is_valid (attr : Attribute) : Bool :=
  decide (attr.id ≠ Attribute.invalid.id)

/-- The call `find(attr)` on `std::map<Attribute, SymbolAttributes>`, the keys compared by
id: the mapped value, `none` for `end()`. -/
def sym_map_find : List (Attribute × SymbolAttributes) → Attribute → Option SymbolAttributes
  | [], _ => none
  | (k', v') :: m, k => if k.id = k'.id then some v' else sym_map_find m k

/-- The call `insert(make_pair(attr, sym_attribs))` on `std::map<Attribute,
SymbolAttributes>`: an existing key keeps its entry, a new key is placed in id order. -/
def sym_map_insert : List (Attribute × SymbolAttributes) → Attribute → SymbolAttributes →
    List (Attribute × SymbolAttributes)
  | [], k, v => [(k, v)]
  | (k', v') :: m, k, v =>
    if k.id = k'.id then (k', v') :: m
    else if k.id < k'.id then (k, v) :: (k', v') :: m
    else (k', v') :: sym_map_insert m k v

/-- The method `SymbolLookup::check_attribute`. -/
def SymbolLookup.check_attribute (sl : SymbolLookup) (c : Caliper) (attr : Attribute) :
    SymbolLookup :=
  if attr.name ∈ sl.m_addr_attr_names then
    let sym_attribs : SymbolAttributes :=
      { file_attr := c.create_attribute ("source.file#" ++ attr.name)
          cali_attr_type.CALI_TYPE_STRING CALI_ATTR_DEFAULT,
        line_attr := c.create_attribute ("source.line#" ++ attr.name)
          cali_attr_type.CALI_TYPE_UINT CALI_ATTR_DEFAULT,
        func_attr := c.create_attribute ("source.function#" ++ attr.name)
          cali_attr_type.CALI_TYPE_STRING CALI_ATTR_DEFAULT }
    { sl with m_sym_attr_map := sym_map_insert sl.m_sym_attr_map attr sym_attribs }
  else sl

/-- The loop of `SymbolLookup::post_init_cb` over the names `names`. -/
def SymbolLookup.post_init_loop (c : Caliper) : List String → SymbolLookup → SymbolLookup
  | [], sl => sl
  | s :: names, sl =>
    let attr := c.get_attribute s
    SymbolLookup.post_init_loop c names
      (if attr.is_valid then sl.check_attribute c attr else sl)

/-- The callback `SymbolLookup::post_init_cb` on the instance `sl`. -/
def SymbolLookup.post_init_cb (sl : SymbolLookup) (c : Caliper) : SymbolLookup :=
  SymbolLookup.post_init_loop c sl.m_addr_attr_names sl

/-- One line written by `finish_log` to the log stream: the summary `symbollookup:
Performed <lookups> address lookups, <failed> failed.` or the diagnostic `symbollookup:
Address attribute <attrname> not found!`. -/
inductive LogLine where
  | performed (lookups failed : Nat)
  | not_found (attrname : String)
deriving DecidableEq, Repr

/-- The body of the loop of `finish_log` for one configured name: the diagnostic it
writes, if any. -/
def SymbolLookup.finish_log_name (sl : SymbolLookup) (c : Caliper) (attrname : String) :
    Option LogLine :=
  let attr := c.get_attribute attrname
  let found := if attr.is_valid then (sym_map_find sl.m_sym_attr_map attr).isSome else false
  if !found then some (LogLine.not_found attrname) else none

/-- The method `SymbolLookup::finish_log`: the lines written to the log stream, in order. -/
def SymbolLookup.finish_log (sl : SymbolLookup) (c : Caliper) : List LogLine :=
  LogLine.performed sl.m_num_lookups sl.m_num_failed ::
    (if sl.m_addr_attr_names.length ≠ sl.m_sym_attr_map.length then
        sl.m_addr_attr_names.filterMap (sl.finish_log_name c)
      else [])

/-- The instance after the calls of `check_attribute` listed in `calls`, each with the
runtime object and the Attribute passed. -/
def SymbolLookup.after_checks (sl : SymbolLookup) : List (Caliper × Attribute) → SymbolLookup
  | [] => sl
  | ca :: calls => SymbolLookup.after_checks (sl.check_attribute ca.1 ca.2) calls

/-- The registry of the examples: `callsite` registered with id 3, nothing else. -/
def example_store : AttributeStoreImpl :=
  { attributes := [⟨0, "function", cali_attr_type.CALI_TYPE_STRING, 0⟩,
                   ⟨1, "loop", cali_attr_type.CALI_TYPE_INT, 0⟩,
                   ⟨2, "phase", cali_attr_type.CALI_TYPE_STRING, 0⟩,
                   example_addr_attr],
    namelist := [("callsite", 3), ("function", 0), ("loop", 1), ("phase", 2)] }

/-- The service of the examples right after its constructor, configured for the address
attributes `callsite` and `missing`. -/
def example_configured : SymbolLookup :=
  { m_sym_attr_map := [],
    m_addr_attr_names := ["callsite", "missing"],
    m_symtab := some example_symtab,
    m_num_lookups := 0,
    m_num_failed := 0 }

/-! ## Lemmas on the map and the vector -/

theorem map_find_none_iff (m : List (String × Nat)) (k : String) :
    map_find m k = none ↔ k ∉ m.map Prod.fst := by
  induction m with
  | nil => simp [map_find]
  | cons p m ih =>
    obtain ⟨k', v'⟩ := p
    by_cases h : k = k'
    · simp [map_find, h]
    · simp [map_find, h, ih]

theorem map_find_some_mem (m : List (String × Nat)) (k : String) (v : Nat)
    (h : map_find m k = some v) : (k, v) ∈ m := by
  induction m with
  | nil => simp [map_find] at h
  | cons p m ih =>
    obtain ⟨k', v'⟩ := p
    by_cases hk : k = k'
    · simp [map_find, hk] at h
      simp [hk, h]
    · simp [map_find, hk] at h
      exact List.mem_cons_of_mem _ (ih h)

theorem map_find_of_mem (m : List (String × Nat)) (hm : (m.map Prod.fst).Nodup)
    (k : String) (v : Nat) (h : (k, v) ∈ m) : map_find m k = some v := by
  induction m with
  | nil => simp at h
  | cons p m ih =>
    obtain ⟨k', v'⟩ := p
    simp only [List.map_cons, List.nodup_cons] at hm
    rcases List.mem_cons.mp h with h | h
    · injection h with h1 h2
      simp [map_find, h1, h2]
    · have hne : k ≠ k' := by
        intro hk
        apply hm.1
        rw [← hk]
        exact List.mem_map_of_mem Prod.fst h
      simp [map_find, hne, ih hm.2 h]

theorem map_insert_perm (m : List (String × Nat)) (k : String) (v : Nat)
    (h : map_find m k = none) : (map_insert m k v).Perm ((k, v) :: m) := by
  induction m with
  | nil => simp [map_insert]
  | cons p m ih =>
    obtain ⟨k', v'⟩ := p
    by_cases hk : k = k'
    · simp [map_find, hk] at h
    · simp only [map_find, hk, if_false] at h
      by_cases hlt : k.data < k'.data
      · simp [map_insert, hk, hlt]
      · simp only [map_insert, hk, hlt, if_false]
        exact ((ih h).cons (k', v')).trans (List.Perm.swap _ _ _)

theorem map_find_insert (m : List (String × Nat)) (k : String) (v : Nat)
    (h : map_find m k = none) (k' : String) :
    map_find (map_insert m k v) k' = if k' = k then some v else map_find m k' := by
  induction m with
  | nil => simp [map_insert, map_find]
  | cons p m ih =>
    obtain ⟨k0, v0⟩ := p
    by_cases hk : k = k0
    · simp [map_find, hk] at h
    · simp only [map_find, hk, if_false] at h
      by_cases hlt : k.data < k0.data
      · simp [map_insert, hk, hlt, map_find]
      · simp only [map_insert, hk, hlt, if_false, map_find, ih h]
        by_cases h1 : k' = k0
        · have h2 : ¬ k0 = k := fun e => hk e.symm
          simp [h1, h2]
        · simp [h1]

/-! ## Lemmas on `create` and `get` -/

theorem size_lt_id_mod {max_size n : Nat} (hmax : max_size ≤ SIZE_MAX) (h : n ≤ max_size) :
    n < ID_MOD := by
  have h1 : SIZE_MAX < ID_MOD := by decide
  omega

theorem create_found (max_size : Nat) (s : AttributeStoreImpl) (n : String)
    (t : cali_attr_type) (p : Int) (i : Nat) (a : Attribute)
    (hf : map_find s.namelist n = some i) (ha : s.attributes[i]? = some a) :
    s.create max_size n t p = some (a, s) := by
  simp [AttributeStoreImpl.create, hf, ha]

theorem create_new (max_size : Nat) (s : AttributeStoreImpl) (n : String)
    (t : cali_attr_type) (p : Int)
    (hf : map_find s.namelist n = none) (hroom : s.attributes.length < max_size) :
    s.create max_size n t p =
      some (⟨s.attributes.length % ID_MOD, n, t, p⟩,
        { attributes := s.attributes ++ [⟨s.attributes.length % ID_MOD, n, t, p⟩],
          namelist := map_insert s.namelist n (s.attributes.length % ID_MOD) }) := by
  simp [AttributeStoreImpl.create, hf, push_back, hroom]

theorem create_full (max_size : Nat) (s : AttributeStoreImpl) (n : String)
    (t : cali_attr_type) (p : Int)
    (hf : map_find s.namelist n = none) (hroom : ¬ s.attributes.length < max_size) :
    s.create max_size n t p = none := by
  simp [AttributeStoreImpl.create, hf, push_back, hroom]

/-- What a successful `create` on a consistent store did: either the name was there and
nothing changed, or one attribute with the next id was appended. -/
theorem create_cases {max_size : Nat} (hmax : max_size ≤ SIZE_MAX) {s s' : AttributeStoreImpl}
    (hs : s.Consistent max_size) {n : String} {t : cali_attr_type} {p : Int} {a : Attribute}
    (h : s.create max_size n t p = some (a, s')) :
    (∃ i, map_find s.namelist n = some i ∧ s.attributes[i]? = some a ∧ s' = s) ∨
    (map_find s.namelist n = none ∧ s.attributes.length < max_size ∧
      a = ⟨s.attributes.length, n, t, p⟩ ∧
      s' = { attributes := s.attributes ++ [a],
             namelist := map_insert s.namelist n s.attributes.length }) := by
  cases hf : map_find s.namelist n with
  | some i =>
    left
    obtain ⟨b, hb, _⟩ := hs.name_ok n i hf
    rw [create_found max_size s n t p i b hf hb] at h
    injection h with h
    injection h with h1 h2
    exact ⟨i, rfl, h1 ▸ hb, h2.symm⟩
  | none =>
    right
    by_cases hroom : s.attributes.length < max_size
    · rw [create_new max_size s n t p hf hroom] at h
      have hmod : s.attributes.length % ID_MOD = s.attributes.length :=
        Nat.mod_eq_of_lt (size_lt_id_mod hmax hs.size_le)
      rw [hmod] at h
      injection h with h
      injection h with h1 h2
      subst h1
      exact ⟨rfl, hroom, rfl, h2.symm⟩
    · rw [create_full max_size s n t p hf hroom] at h
      exact absurd h (by simp)

theorem consistent_empty (max_size : Nat) : AttributeStoreImpl.empty.Consistent max_size where
  size_le := by simp [AttributeStoreImpl.empty]
  attr_ok := by simp [AttributeStoreImpl.empty]
  name_ok := by simp [AttributeStoreImpl.empty, map_find]
  size_eq := by simp [AttributeStoreImpl.empty]
  keys_nodup := by simp [AttributeStoreImpl.empty]

theorem consistent_append {max_size : Nat} {s : AttributeStoreImpl}
    (hs : s.Consistent max_size) (n : String) (t : cali_attr_type) (p : Int)
    (hf : map_find s.namelist n = none) (hroom : s.attributes.length < max_size) :
    AttributeStoreImpl.Consistent max_size
      { attributes := s.attributes ++ [⟨s.attributes.length, n, t, p⟩],
        namelist := map_insert s.namelist n s.attributes.length } where
  size_le := by simp; omega
  attr_ok := by
    intro i a hi
    simp only at hi ⊢
    by_cases hlt : i < s.attributes.length
    · rw [List.getElem?_append_left hlt] at hi
      obtain ⟨h1, h2⟩ := hs.attr_ok i a hi
      refine ⟨h1, ?_⟩
      rw [map_find_insert _ _ _ hf]
      have hne : a.name ≠ n := by
        intro e
        rw [e, hf] at h2
        exact absurd h2 (by simp)
      simp [hne, h2]
    · rw [List.getElem?_append_right (Nat.le_of_not_lt hlt)] at hi
      have hi0 : i - s.attributes.length = 0 := by
        by_contra hne
        obtain ⟨j, hj⟩ := Nat.exists_eq_succ_of_ne_zero hne
        rw [hj] at hi
        simp at hi
      rw [hi0] at hi
      simp at hi
      subst hi
      have : i = s.attributes.length := by omega
      simp [map_find_insert _ _ _ hf, this]
  name_ok := by
    intro k i hk
    simp only at hk ⊢
    rw [map_find_insert _ _ _ hf] at hk
    by_cases hkn : k = n
    · simp [hkn] at hk
      subst hk
      exact ⟨⟨s.attributes.length, n, t, p⟩, by simp, hkn.symm⟩
    · simp [hkn] at hk
      obtain ⟨a, ha, hname⟩ := hs.name_ok k i hk
      have hlt : i < s.attributes.length := by
        rcases Nat.lt_or_ge i s.attributes.length with h | h
        · exact h
        · rw [List.getElem?_eq_none h] at ha
          exact absurd ha (by simp)
      exact ⟨a, by rw [List.getElem?_append_left hlt]; exact ha, hname⟩
  size_eq := by
    simp only
    rw [(map_insert_perm _ _ _ hf).length_eq]
    simp [hs.size_eq]
  keys_nodup := by
    simp only
    rw [((map_insert_perm _ _ _ hf).map Prod.fst).nodup_iff]
    simp only [List.map_cons, List.nodup_cons]
    exact ⟨(map_find_none_iff _ _).mp hf, hs.keys_nodup⟩

theorem run_cons_eq_some {max_size : Nat} {s s'' : AttributeStoreImpl} {c : Call}
    {cs : List Call} {r : List Attribute}
    (h : AttributeStoreImpl.run max_size s (c :: cs) = some (r, s'')) :
    ∃ a s' as, s.call max_size c = some (a, s') ∧
      AttributeStoreImpl.run max_size s' cs = some (as, s'') ∧ r = a :: as := by
  simp only [AttributeStoreImpl.run] at h
  cases hc : s.call max_size c with
  | none => simp [hc] at h
  | some x =>
    obtain ⟨a, s'⟩ := x
    simp only [hc] at h
    cases hr : AttributeStoreImpl.run max_size s' cs with
    | none => simp [hr] at h
    | some y =>
      obtain ⟨as, s2⟩ := y
      simp only [hr, Option.some.injEq, Prod.mk.injEq] at h
      exact ⟨a, s', as, rfl, by rw [← h.2, hr], h.1.symm⟩

theorem run_cons_of {max_size : Nat} {s s' s'' : AttributeStoreImpl} {c : Call}
    {cs : List Call} {a : Attribute} {as : List Attribute}
    (hc : s.call max_size c = some (a, s'))
    (hr : AttributeStoreImpl.run max_size s' cs = some (as, s'')) :
    AttributeStoreImpl.run max_size s (c :: cs) = some (a :: as, s'') := by
  simp [AttributeStoreImpl.run, hc, hr]

/-- One successful call keeps the invariant, only appends to `attributes`, and adds at most
the created name to the names the store holds. -/
theorem call_spec {max_size : Nat} (hmax : max_size ≤ SIZE_MAX) {s s' : AttributeStoreImpl}
    (hs : s.Consistent max_size) {c : Call} {a : Attribute}
    (h : s.call max_size c = some (a, s')) :
    s'.Consistent max_size ∧ (∃ suf, s'.attributes = s.attributes ++ suf) ∧
    (∀ n, map_find s'.namelist n ≠ none ↔
      (map_find s.namelist n ≠ none ∨ n ∈ created_names [c])) := by
  cases c with
  | create n t p =>
    simp only [AttributeStoreImpl.call] at h
    rcases create_cases hmax hs h with ⟨i, hf, _, rfl⟩ | ⟨hf, hroom, rfl, rfl⟩
    · refine ⟨hs, ⟨[], by simp⟩, ?_⟩
      intro k
      simp only [created_names, List.mem_singleton]
      constructor
      · intro hk; exact Or.inl hk
      · rintro (hk | hk)
        · exact hk
        · rw [hk, hf]; simp
    · refine ⟨consistent_append hs n t p hf hroom, ⟨_, rfl⟩, ?_⟩
      intro k
      simp only [created_names, List.mem_singleton]
      rw [map_find_insert _ _ _ hf]
      by_cases hk : k = n
      · simp [hk]
      · simp [hk]
  | get_id i =>
    simp only [AttributeStoreImpl.call] at h
    cases hg : s.get_id i with
    | none => simp [hg] at h
    | some b =>
      simp only [hg, Option.map_some', Option.some.injEq, Prod.mk.injEq] at h
      rw [← h.2]
      exact ⟨hs, ⟨[], by simp⟩, by simp [created_names]⟩
  | get_name n =>
    simp only [AttributeStoreImpl.call] at h
    cases hg : s.get_name n with
    | none => simp [hg] at h
    | some b =>
      simp only [hg, Option.map_some', Option.some.injEq, Prod.mk.injEq] at h
      rw [← h.2]
      exact ⟨hs, ⟨[], by simp⟩, by simp [created_names]⟩

theorem created_names_cons (c : Call) (cs : List Call) :
    created_names (c :: cs) = created_names [c] ++ created_names cs := by
  cases c <;> simp [created_names]

/-- A successful run keeps the invariant, only appends to `attributes`, and the store holds
afterwards the names it held before and the created ones. -/
theorem run_spec {max_size : Nat} (hmax : max_size ≤ SIZE_MAX) :
    ∀ (calls : List Call) (s s' : AttributeStoreImpl) (results : List Attribute),
    s.Consistent max_size →
    AttributeStoreImpl.run max_size s calls = some (results, s') →
    s'.Consistent max_size ∧ (∃ suf, s'.attributes = s.attributes ++ suf) ∧
    (∀ n, map_find s'.namelist n ≠ none ↔
      (map_find s.namelist n ≠ none ∨ n ∈ created_names calls)) := by
  intro calls
  induction calls with
  | nil =>
    intro s s' results hs h
    simp only [AttributeStoreImpl.run, Option.some.injEq, Prod.mk.injEq] at h
    rw [← h.2]
    exact ⟨hs, ⟨[], by simp⟩, by simp [created_names]⟩
  | cons c cs ih =>
    intro s s'' results hs h
    obtain ⟨a, s', as, hc, hr, _⟩ := run_cons_eq_some h
    obtain ⟨hs', ⟨suf1, h1⟩, hn1⟩ := call_spec hmax hs hc
    obtain ⟨hs'', ⟨suf2, h2⟩, hn2⟩ := ih s' s'' as hs' hr
    refine ⟨hs'', ⟨suf1 ++ suf2, by rw [h2, h1, List.append_assoc]⟩, ?_⟩
    intro n
    rw [hn2 n, hn1 n, created_names_cons c cs, List.mem_append, or_assoc]

theorem reachable_consistent {max_size : Nat} (hmax : max_size ≤ SIZE_MAX)
    {s : AttributeStoreImpl} (h : s.Reachable max_size) : s.Consistent max_size := by
  obtain ⟨calls, results, hr⟩ := h
  exact (run_spec hmax calls _ _ _ (consistent_empty max_size) hr).1

theorem get_id_lt {max_size : Nat} {s : AttributeStoreImpl} (hs : s.Consistent max_size)
    {i : Nat} (hi : i < s.attributes.length) :
    ∃ a, s.get_id i = some a ∧ s.attributes[i]? = some a ∧ a.id = i := by
  refine ⟨s.attributes[i], ?_, ?_, ?_⟩
  · simp [AttributeStoreImpl.get_id, hi]
  · simp [hi]
  · exact (hs.attr_ok i _ (by simp [hi])).1

theorem get_id_ge (s : AttributeStoreImpl) {i : Nat} (hi : s.attributes.length ≤ i) :
    s.get_id i = some Attribute.invalid := by
  simp [AttributeStoreImpl.get_id, Nat.not_lt.mpr hi]

theorem get_name_held {max_size : Nat} {s : AttributeStoreImpl} (hs : s.Consistent max_size)
    {n : String} (hn : map_find s.namelist n ≠ none) :
    ∃ a i, s.get_name n = some a ∧ map_find s.namelist n = some i ∧
      s.attributes[i]? = some a ∧ a.name = n ∧ a.id = i := by
  cases hf : map_find s.namelist n with
  | none => exact absurd hf hn
  | some i =>
    obtain ⟨a, ha, hname⟩ := hs.name_ok n i hf
    exact ⟨a, i, by simp [AttributeStoreImpl.get_name, hf, ha], rfl, ha, hname,
      (hs.attr_ok i a ha).1⟩

theorem get_name_not_held (s : AttributeStoreImpl) {n : String}
    (hn : map_find s.namelist n = none) : s.get_name n = some Attribute.invalid := by
  simp [AttributeStoreImpl.get_name, hn]

theorem mem_attributes_id_lt {max_size : Nat} {s : AttributeStoreImpl}
    (hs : s.Consistent max_size) {a : Attribute} (ha : a ∈ s.attributes) :
    a.id < s.attributes.length ∧ s.attributes[a.id]? = some a ∧
      map_find s.namelist a.name = some a.id := by
  obtain ⟨i, hi, hget⟩ := List.mem_iff_getElem.mp ha
  have h1 : s.attributes[i]? = some a := by simp [hi, hget]
  obtain ⟨hid, hfind⟩ := hs.attr_ok i a h1
  rw [hid]
  exact ⟨hi, h1, hfind⟩

theorem create_calls_cons (c : String × cali_attr_type × Int)
    (cs : List (String × cali_attr_type × Int)) :
    create_calls (c :: cs) = Call.create c.1 c.2.1 c.2.2 :: create_calls cs := rfl

theorem created_names_create_calls (cs : List (String × cali_attr_type × Int)) :
    created_names (create_calls cs) = cs.map Prod.fst := by
  induction cs with
  | nil => rfl
  | cons c cs ih => rw [create_calls_cons, created_names, ih, List.map_cons]

/-- Every Attribute a run of `create` calls returns is held by the final store. -/
theorem run_create_results_mem {max_size : Nat} (hmax : max_size ≤ SIZE_MAX) :
    ∀ (cs : List (String × cali_attr_type × Int)) (s s' : AttributeStoreImpl)
      (results : List Attribute), s.Consistent max_size →
    AttributeStoreImpl.run max_size s (create_calls cs) = some (results, s') →
    ∀ a ∈ results, a ∈ s'.attributes := by
  intro cs
  induction cs with
  | nil =>
    intro s s' results _ h a ha
    simp only [create_calls, List.map_nil, AttributeStoreImpl.run, Option.some.injEq,
      Prod.mk.injEq] at h
    rw [← h.1] at ha
    simp at ha
  | cons c cs ih =>
    intro s s'' results hs h a ha
    rw [create_calls_cons] at h
    obtain ⟨b, s', bs, hc, hr, rfl⟩ := run_cons_eq_some h
    obtain ⟨hs', _, _⟩ := call_spec hmax hs hc
    rcases List.mem_cons.mp ha with hab | hab
    · subst hab
      obtain ⟨_, ⟨suf, hsuf⟩, _⟩ := run_spec hmax _ _ _ _ hs' hr
      have hmem : a ∈ s'.attributes := by
        simp only [AttributeStoreImpl.call] at hc
        rcases create_cases hmax hs hc with ⟨i, _, hi, rfl⟩ | ⟨_, _, _, rfl⟩
        · exact List.getElem?_mem hi
        · simp
      rw [hsuf]
      exact List.mem_append_left _ hmem
    · exact ih s' s'' bs hs' hr a hab

theorem fresh_results_ids (cs : List (String × cali_attr_type × Int)) (k : Nat) :
    (fresh_results k cs).map Attribute.id = List.range' k cs.length := by
  induction cs generalizing k with
  | nil => rfl
  | cons c cs ih => simp [fresh_results, ih, List.range'_succ]

theorem fresh_results_getElem? (cs : List (String × cali_attr_type × Int)) (k i : Nat)
    (c : String × cali_attr_type × Int) (h : cs[i]? = some c) :
    (fresh_results k cs)[i]? = some ⟨k + i, c.1, c.2.1, c.2.2⟩ := by
  induction cs generalizing k i with
  | nil => simp at h
  | cons c0 cs ih =>
    cases i with
    | zero =>
      simp at h
      simp [fresh_results, h]
    | succ j =>
      simp only [List.getElem?_cons_succ] at h
      simp only [fresh_results, List.getElem?_cons_succ]
      rw [ih (k + 1) j h]
      have : k + 1 + j = k + (j + 1) := by omega
      rw [this]

/-- A run of `create` calls with fresh, pairwise distinct names on a consistent store
returns the next ids in call order, and goes through when the vector has room. -/
theorem run_create_fresh {max_size : Nat} (hmax : max_size ≤ SIZE_MAX) :
    ∀ (cs : List (String × cali_attr_type × Int)) (s : AttributeStoreImpl),
    s.Consistent max_size → (∀ c ∈ cs, map_find s.namelist c.1 = none) →
    (cs.map Prod.fst).Nodup →
    (s.attributes.length + cs.length ≤ max_size →
      (AttributeStoreImpl.run max_size s (create_calls cs)).isSome) ∧
    (∀ results s', AttributeStoreImpl.run max_size s (create_calls cs) = some (results, s') →
      results = fresh_results s.attributes.length cs) := by
  intro cs
  induction cs with
  | nil =>
    intro s _ _ _
    refine ⟨fun _ => by simp [create_calls, AttributeStoreImpl.run], ?_⟩
    intro results s' h
    simp only [create_calls, List.map_nil, AttributeStoreImpl.run, Option.some.injEq,
      Prod.mk.injEq] at h
    rw [← h.1]
    rfl
  | cons c cs ih =>
    intro s hs hfresh hnodup
    have hf : map_find s.namelist c.1 = none := hfresh c (List.mem_cons_self _ _)
    simp only [List.map_cons, List.nodup_cons] at hnodup
    have hfresh' : ∀ (a : Attribute) (s' : AttributeStoreImpl),
        s.create max_size c.1 c.2.1 c.2.2 = some (a, s') →
        a = ⟨s.attributes.length, c.1, c.2.1, c.2.2⟩ ∧ s'.Consistent max_size ∧
        s'.attributes.length = s.attributes.length + 1 ∧
        ∀ c' ∈ cs, map_find s'.namelist c'.1 = none := by
      intro a s' hc
      rcases create_cases hmax hs hc with ⟨i, hi, _, _⟩ | ⟨_, hroom, ha, hs'⟩
      · rw [hf] at hi
        exact absurd hi (by simp)
      · subst ha
        subst hs'
        refine ⟨rfl, consistent_append hs _ _ _ hf hroom, by simp, ?_⟩
        intro c' hc'
        simp only
        rw [map_find_insert _ _ _ hf]
        have hne : c'.1 ≠ c.1 := by
          intro e
          apply hnodup.1
          rw [← e]
          exact List.mem_map_of_mem Prod.fst hc'
        simp [hne, hfresh c' (List.mem_cons_of_mem _ hc')]
    constructor
    · intro hlen
      simp only [List.length_cons] at hlen
      have hroom : s.attributes.length < max_size := by omega
      have hc := create_new max_size s c.1 c.2.1 c.2.2 hf hroom
      obtain ⟨_, hs', hlen', hfr⟩ := hfresh' _ _ hc
      have hsome := (ih _ hs' hfr hnodup.2).1 (by rw [hlen']; omega)
      obtain ⟨⟨as, s''⟩, hr⟩ := Option.isSome_iff_exists.mp hsome
      rw [create_calls_cons, run_cons_of (by simpa [AttributeStoreImpl.call] using hc) hr]
      rfl
    · intro results s'' h
      rw [create_calls_cons] at h
      obtain ⟨a, s', as, hc, hr, rfl⟩ := run_cons_eq_some h
      simp only [AttributeStoreImpl.call] at hc
      obtain ⟨ha, hs', hlen', hfr⟩ := hfresh' a s' hc
      have := (ih s' hs' hfr hnodup.2).2 as s'' hr
      rw [this, hlen', ha]
      rfl

theorem attributes_ids {max_size : Nat} {s : AttributeStoreImpl}
    (hs : s.Consistent max_size) :
    s.attributes.map Attribute.id = List.range s.attributes.length := by
  apply List.ext_getElem?
  intro i
  rw [List.getElem?_map]
  by_cases hi : i < s.attributes.length
  · obtain ⟨a, _, ha, hid⟩ := get_id_lt hs hi
    rw [ha, List.getElem?_range hi]
    simp [hid]
  · have hge := Nat.le_of_not_lt hi
    rw [List.getElem?_eq_none hge, List.getElem?_eq_none (by simpa using hge)]
    rfl

theorem attributes_names_nodup {max_size : Nat} {s : AttributeStoreImpl}
    (hs : s.Consistent max_size) : (s.attributes.map Attribute.name).Nodup := by
  have hnd : s.attributes.Nodup := by
    apply List.Nodup.of_map Attribute.id
    rw [attributes_ids hs]
    exact List.nodup_range _
  apply List.Nodup.map_on _ hnd
  intro a ha b hb hab
  obtain ⟨_, ha1, ha2⟩ := mem_attributes_id_lt hs ha
  obtain ⟨_, hb1, hb2⟩ := mem_attributes_id_lt hs hb
  rw [hab, hb2] at ha2
  injection ha2 with hid
  rw [hid, ha1] at hb1
  exact Option.some.inj hb1

theorem mem_attributes_names {max_size : Nat} {s : AttributeStoreImpl}
    (hs : s.Consistent max_size) (n : String) :
    n ∈ s.attributes.map Attribute.name ↔ map_find s.namelist n ≠ none := by
  constructor
  · intro h
    obtain ⟨a, ha, hname⟩ := List.mem_map.mp h
    obtain ⟨_, _, hf⟩ := mem_attributes_id_lt hs ha
    rw [← hname, hf]
    simp
  · intro h
    obtain ⟨a, i, _, _, ha, hname, _⟩ := get_name_held hs h
    exact List.mem_map.mpr ⟨a, List.getElem?_mem ha, hname⟩

theorem get_of_mem {max_size : Nat} {s : AttributeStoreImpl}
    (hs : s.Consistent max_size) {a : Attribute} (ha : a ∈ s.attributes) :
    s.get_id a.id = some a ∧ s.get_name a.name = some a := by
  obtain ⟨hlt, hget, hfind⟩ := mem_attributes_id_lt hs ha
  constructor
  · simp [AttributeStoreImpl.get_id, hlt]
    simpa [hlt] using hget
  · simp [AttributeStoreImpl.get_name, hfind, hget]

theorem create_result_mem {max_size : Nat} (hmax : max_size ≤ SIZE_MAX)
    {s s' : AttributeStoreImpl} (hs : s.Consistent max_size) {n : String}
    {t : cali_attr_type} {p : Int} {a : Attribute}
    (h : s.create max_size n t p = some (a, s')) :
    s'.Consistent max_size ∧ a ∈ s'.attributes ∧ a.name = n := by
  have hs' : s'.Consistent max_size :=
    (call_spec hmax hs (c := Call.create n t p) (by simpa [AttributeStoreImpl.call] using h)).1
  refine ⟨hs', ?_⟩
  rcases create_cases hmax hs h with ⟨i, hf, hi, rfl⟩ | ⟨_, _, ha, rfl⟩
  · obtain ⟨b, hb, hname⟩ := hs.name_ok n i hf
    rw [hi] at hb
    injection hb with hb
    exact ⟨List.getElem?_mem hi, hb ▸ hname⟩
  · exact ⟨by simp, by rw [ha]⟩

/-! ## The attribute registry: claims -/

/-- C1, as stated, fails: on a store that already holds "phase" as a string attribute with
properties 0, `create("phase", uint, 1)` followed by `create("phase", int, 2)` and
`get("phase")` all return the string attribute of the first creation, whose type is not the
`T1 = uint` and whose properties are not the `P1 = 1` of the first of the two calls. -/
theorem create_idempotent_counterexample :
    (AttributeStoreImpl.run 8 AttributeStoreImpl.empty
      [Call.create "phase" cali_attr_type.CALI_TYPE_STRING 0,
       Call.create "phase" cali_attr_type.CALI_TYPE_UINT 1,
       Call.create "phase" cali_attr_type.CALI_TYPE_INT 2,
       Call.get_name "phase"]).map Prod.fst =
      some [⟨0, "phase", cali_attr_type.CALI_TYPE_STRING, 0⟩,
            ⟨0, "phase", cali_attr_type.CALI_TYPE_STRING, 0⟩,
            ⟨0, "phase", cali_attr_type.CALI_TYPE_STRING, 0⟩,
            ⟨0, "phase", cali_attr_type.CALI_TYPE_STRING, 0⟩] ∧
    cali_attr_type.CALI_TYPE_STRING ≠ cali_attr_type.CALI_TYPE_UINT ∧ (0 : Int) ≠ 1 := by
  decide

/-- C1, amended: on every reachable store (with room for one more attribute when the name
is new), `create(n, T1, P1)` returns an Attribute `a` of name `n`, a following
`create(n, T2, P2)` returns the same `a` and leaves the store as the first call left it, and
`get(n)` then returns `a`. When the store did not hold `n` before, `a` has the next id,
type `T1` and properties `P1`; when it did, `a` is the Attribute stored under `n` and the
store is unchanged. -/
theorem create_idempotent {max_size : Nat} (hmax : max_size ≤ SIZE_MAX)
    (s : AttributeStoreImpl) (hs : s.Reachable max_size)
    (n : String) (T1 T2 : cali_attr_type) (P1 P2 : Int)
    (hroom : map_find s.namelist n = none → s.attributes.length < max_size) :
    ∃ a s1, s.create max_size n T1 P1 = some (a, s1) ∧
      s1.create max_size n T2 P2 = some (a, s1) ∧
      s1.get_name n = some a ∧ a.name = n ∧
      (map_find s.namelist n = none → a = ⟨s.attributes.length, n, T1, P1⟩) ∧
      (∀ i, map_find s.namelist n = some i → s.attributes[i]? = some a ∧ s1 = s) := by
  have hc := reachable_consistent hmax hs
  cases hf : map_find s.namelist n with
  | some i =>
    obtain ⟨a, ha, hname⟩ := hc.name_ok n i hf
    have h1 := create_found max_size s n T1 P1 i a hf ha
    have h2 := create_found max_size s n T2 P2 i a hf ha
    refine ⟨a, s, h1, h2, ?_, hname, by simp, ?_⟩
    · simp [AttributeStoreImpl.get_name, hf, ha]
    · intro j hj
      injection hj with hj
      subst hj
      exact ⟨ha, rfl⟩
  | none =>
    have hr := hroom hf
    have h1 := create_new max_size s n T1 P1 hf hr
    have hmod : s.attributes.length % ID_MOD = s.attributes.length :=
      Nat.mod_eq_of_lt (size_lt_id_mod hmax hc.size_le)
    rw [hmod] at h1
    have hc1 := consistent_append hc n T1 P1 hf hr
    have hfind : map_find (map_insert s.namelist n s.attributes.length) n =
        some s.attributes.length := by
      rw [map_find_insert _ _ _ hf]; simp
    have hget : (s.attributes ++ [(⟨s.attributes.length, n, T1, P1⟩ : Attribute)])[
        s.attributes.length]? = some ⟨s.attributes.length, n, T1, P1⟩ := by simp
    refine ⟨_, _, h1, create_found max_size _ n T2 P2 _ _ hfind hget, ?_, rfl,
      fun _ => rfl, by simp⟩
    simp [AttributeStoreImpl.get_name, hfind]

/-- Witness of `create_idempotent`: the empty store, vector limit 8, name "phase". -/
theorem create_idempotent_witness :
    ∃ a s1, AttributeStoreImpl.empty.create 8 "phase" cali_attr_type.CALI_TYPE_STRING 0
        = some (a, s1) ∧
      s1.create 8 "phase" cali_attr_type.CALI_TYPE_UINT 1 = some (a, s1) ∧
      s1.get_name "phase" = some a ∧ a.name = "phase" ∧
      (map_find AttributeStoreImpl.empty.namelist "phase" = none →
        a = ⟨AttributeStoreImpl.empty.attributes.length, "phase",
          cali_attr_type.CALI_TYPE_STRING, 0⟩) ∧
      (∀ i, map_find AttributeStoreImpl.empty.namelist "phase" = some i →
        AttributeStoreImpl.empty.attributes[i]? = some a ∧ s1 = AttributeStoreImpl.empty) :=
  create_idempotent (by decide : 8 ≤ SIZE_MAX) AttributeStoreImpl.empty ⟨[], [], rfl⟩
    "phase" cali_attr_type.CALI_TYPE_STRING cali_attr_type.CALI_TYPE_UINT 0 1
    (fun _ => by decide)

/-- C2: `create` calls with pairwise distinct names on the empty store go through while the
vector has room for them, and then the i-th call (from 0) returns the Attribute with id `i`
and the arguments of that call: the ids are `0, 1, ..., k-1`, pairwise distinct. -/
theorem create_ids_dense {max_size : Nat} (hmax : max_size ≤ SIZE_MAX)
    (cs : List (String × cali_attr_type × Int)) (hdistinct : (cs.map Prod.fst).Nodup) :
    (cs.length ≤ max_size →
      (AttributeStoreImpl.run max_size AttributeStoreImpl.empty (create_calls cs)).isSome) ∧
    (∀ results s,
      AttributeStoreImpl.run max_size AttributeStoreImpl.empty (create_calls cs)
        = some (results, s) →
      results.map Attribute.id = List.range cs.length ∧
      (results.map Attribute.id).Nodup ∧
      results.length = cs.length ∧
      ∀ (i : Nat) (c : String × cali_attr_type × Int), cs[i]? = some c →
        results[i]? = some (Attribute.mk i c.1 c.2.1 c.2.2)) := by
  obtain ⟨h1, h2⟩ := run_create_fresh hmax cs AttributeStoreImpl.empty
    (consistent_empty max_size) (fun _ _ => rfl) hdistinct
  refine ⟨fun hlen => h1 (by simpa [AttributeStoreImpl.empty] using hlen), ?_⟩
  intro results s hrun
  have hres := h2 results s hrun
  have hids : results.map Attribute.id = List.range cs.length := by
    rw [hres, fresh_results_ids, List.range_eq_range']
    rfl
  refine ⟨hids, by rw [hids]; exact List.nodup_range _, ?_, ?_⟩
  · have := congrArg List.length hids
    simpa using this
  · intro i c hi
    rw [hres, fresh_results_getElem? cs _ i c hi]
    simp [AttributeStoreImpl.empty]

/-- Witness of `create_ids_dense`: three distinct names, vector limit 8. -/
theorem create_ids_dense_witness :
    ([("function", cali_attr_type.CALI_TYPE_STRING, (0 : Int)),
      ("iteration", cali_attr_type.CALI_TYPE_UINT, 1),
      ("addr", cali_attr_type.CALI_TYPE_ADDR, 0)].map Prod.fst).Nodup ∧
    (AttributeStoreImpl.run 8 AttributeStoreImpl.empty (create_calls
      [("function", cali_attr_type.CALI_TYPE_STRING, 0),
       ("iteration", cali_attr_type.CALI_TYPE_UINT, 1),
       ("addr", cali_attr_type.CALI_TYPE_ADDR, 0)])).isSome :=
  ⟨by decide,
   (create_ids_dense (by decide : 8 ≤ SIZE_MAX)
      [("function", cali_attr_type.CALI_TYPE_STRING, 0),
       ("iteration", cali_attr_type.CALI_TYPE_UINT, 1),
       ("addr", cali_attr_type.CALI_TYPE_ADDR, 0)] (by decide)).1 (by decide)⟩

/-- C3: after any sequence of `create` calls on the empty store, the store holds one
attribute per distinct created name; `get(name)` for a name that was never created and
`get(id)` for an id not below the number of attributes return `Attribute::invalid`; both
`get` members always return a value; and every Attribute the store holds differs from
`Attribute::invalid`, already in its id. -/
theorem get_unknown_invalid {max_size : Nat} (hmax : max_size ≤ SIZE_MAX)
    (cs : List (String × cali_attr_type × Int)) (results : List Attribute)
    (s : AttributeStoreImpl)
    (hrun : AttributeStoreImpl.run max_size AttributeStoreImpl.empty (create_calls cs)
      = some (results, s)) :
    s.attributes.length = ((cs.map Prod.fst).dedup).length ∧
    (∀ n, n ∉ cs.map Prod.fst → s.get_name n = some Attribute.invalid) ∧
    (∀ id, s.attributes.length ≤ id → s.get_id id = some Attribute.invalid) ∧
    (∀ n, (s.get_name n).isSome) ∧ (∀ id, (s.get_id id).isSome) ∧
    (∀ a ∈ s.attributes, a ≠ Attribute.invalid ∧ a.id ≠ Attribute.invalid.id) := by
  obtain ⟨hs, _, hnames⟩ := run_spec hmax _ _ _ _ (consistent_empty max_size) hrun
  have hheld : ∀ n, map_find s.namelist n ≠ none ↔ n ∈ cs.map Prod.fst := by
    intro n
    rw [hnames n, created_names_create_calls]
    simp [AttributeStoreImpl.empty, map_find]
  refine ⟨?_, ?_, fun id hid => get_id_ge s hid, ?_, ?_, ?_⟩
  · have hperm : (s.attributes.map Attribute.name).Perm ((cs.map Prod.fst).dedup) := by
      rw [List.perm_ext_iff_of_nodup (attributes_names_nodup hs) (List.nodup_dedup _)]
      intro n
      rw [mem_attributes_names hs, hheld, List.mem_dedup]
    simpa using hperm.length_eq
  · intro n hn
    apply get_name_not_held
    by_contra hne
    exact hn ((hheld n).mp hne)
  · intro n
    cases hf : map_find s.namelist n with
    | none => simp [get_name_not_held s hf]
    | some i =>
      obtain ⟨a, _, hg, _⟩ := get_name_held hs (n := n) (by simp [hf])
      simp [hg]
  · intro id
    by_cases hid : id < s.attributes.length
    · obtain ⟨a, hg, _⟩ := get_id_lt hs hid
      simp [hg]
    · simp [get_id_ge s (Nat.le_of_not_lt hid)]
  · intro a ha
    obtain ⟨hlt, _, _⟩ := mem_attributes_id_lt hs ha
    have hne : a.id ≠ Attribute.invalid.id := by
      have h1 : s.attributes.length ≤ SIZE_MAX := Nat.le_trans hs.size_le hmax
      have h2 : Attribute.invalid.id = SIZE_MAX := by decide
      omega
    exact ⟨fun e => hne (by rw [e]), hne⟩

/-- Witness of `get_unknown_invalid`: one attribute "function" created, vector limit 8. -/
theorem get_unknown_invalid_witness :
    AttributeStoreImpl.run 8 AttributeStoreImpl.empty
        (create_calls [("function", cali_attr_type.CALI_TYPE_STRING, 0)])
      = some ([⟨0, "function", cali_attr_type.CALI_TYPE_STRING, 0⟩],
          ⟨[⟨0, "function", cali_attr_type.CALI_TYPE_STRING, 0⟩], [("function", 0)]⟩) ∧
    AttributeStoreImpl.get_name
        ⟨[⟨0, "function", cali_attr_type.CALI_TYPE_STRING, 0⟩], [("function", 0)]⟩ "loop"
      = some Attribute.invalid ∧
    AttributeStoreImpl.get_id
        ⟨[⟨0, "function", cali_attr_type.CALI_TYPE_STRING, 0⟩], [("function", 0)]⟩ 1
      = some Attribute.invalid :=
  have h := get_unknown_invalid (by decide : 8 ≤ SIZE_MAX)
    [("function", cali_attr_type.CALI_TYPE_STRING, 0)]
    [⟨0, "function", cali_attr_type.CALI_TYPE_STRING, 0⟩]
    ⟨[⟨0, "function", cali_attr_type.CALI_TYPE_STRING, 0⟩], [("function", 0)]⟩ (by decide)
  ⟨by decide, h.2.1 "loop" (by decide), h.2.2.1 1 (by decide)⟩

/-- C4: in every store reached from the empty one, the Attribute `a` that `create(n, T, P)`
returns is what `get(a.id)` and `get(n)` return right afterwards; `get(id)` of an id below
the number of attributes has that id, and `get(n)` of a created name has that name. -/
theorem get_returns_created {max_size : Nat} (hmax : max_size ≤ SIZE_MAX)
    (calls : List Call) (results : List Attribute) (s : AttributeStoreImpl)
    (hrun : AttributeStoreImpl.run max_size AttributeStoreImpl.empty calls = some (results, s)) :
    (∀ n T P a s', s.create max_size n T P = some (a, s') →
      s'.get_id a.id = some a ∧ s'.get_name n = some a) ∧
    (∀ id, id < s.attributes.length → ∃ a, s.get_id id = some a ∧ a.id = id) ∧
    (∀ n, n ∈ created_names calls → ∃ a, s.get_name n = some a ∧ a.name = n) := by
  obtain ⟨hs, _, hnames⟩ := run_spec hmax _ _ _ _ (consistent_empty max_size) hrun
  refine ⟨?_, ?_, ?_⟩
  · intro n T P a s' hc
    obtain ⟨hs', hmem, hname⟩ := create_result_mem hmax hs hc
    have := get_of_mem hs' hmem
    rw [hname] at this
    exact this
  · intro id hid
    obtain ⟨a, hg, _, ha⟩ := get_id_lt hs hid
    exact ⟨a, hg, ha⟩
  · intro n hn
    obtain ⟨a, _, hg, _, _, hname, _⟩ := get_name_held hs ((hnames n).mpr (Or.inr hn))
    exact ⟨a, hg, hname⟩

/-- Witness of `get_returns_created`: the store after `create("function", string, 0)`. -/
theorem get_returns_created_witness :
    AttributeStoreImpl.run 8 AttributeStoreImpl.empty
        [Call.create "function" cali_attr_type.CALI_TYPE_STRING 0]
      = some ([⟨0, "function", cali_attr_type.CALI_TYPE_STRING, 0⟩],
          ⟨[⟨0, "function", cali_attr_type.CALI_TYPE_STRING, 0⟩], [("function", 0)]⟩) ∧
    ∃ a, AttributeStoreImpl.get_name
        ⟨[⟨0, "function", cali_attr_type.CALI_TYPE_STRING, 0⟩], [("function", 0)]⟩ "function"
      = some a ∧ a.name = "function" :=
  ⟨by decide,
   (get_returns_created (by decide : 8 ≤ SIZE_MAX)
      [Call.create "function" cali_attr_type.CALI_TYPE_STRING 0]
      [⟨0, "function", cali_attr_type.CALI_TYPE_STRING, 0⟩]
      ⟨[⟨0, "function", cali_attr_type.CALI_TYPE_STRING, 0⟩], [("function", 0)]⟩
      (by decide)).2.2 "function" (by decide)⟩

/-- C5: in every store reached from the empty one by `create` and `get` calls, every entry
`(n, i)` of `namelist` has `i` below `attributes.size()` with `attributes[i]` of name `n`
and id `i`; every index below `attributes.size()` is the value of exactly one name; the two
containers have the same size; no name is a key twice; and the keys are the created names. -/
theorem namelist_bijection {max_size : Nat} (hmax : max_size ≤ SIZE_MAX)
    (calls : List Call) (results : List Attribute) (s : AttributeStoreImpl)
    (hrun : AttributeStoreImpl.run max_size AttributeStoreImpl.empty calls = some (results, s)) :
    (∀ n i, (n, i) ∈ s.namelist →
      i < s.attributes.length ∧ ∃ a, s.attributes[i]? = some a ∧ a.name = n ∧ a.id = i) ∧
    (∀ i, i < s.attributes.length → ∃! n, (n, i) ∈ s.namelist) ∧
    s.namelist.length = s.attributes.length ∧
    (s.namelist.map Prod.fst).Nodup ∧
    (∀ n, n ∈ s.namelist.map Prod.fst ↔ n ∈ created_names calls) := by
  obtain ⟨hs, _, hnames⟩ := run_spec hmax _ _ _ _ (consistent_empty max_size) hrun
  refine ⟨?_, ?_, hs.size_eq, hs.keys_nodup, ?_⟩
  · intro n i hmem
    have hf := map_find_of_mem _ hs.keys_nodup n i hmem
    obtain ⟨a, ha, hname⟩ := hs.name_ok n i hf
    have hlt : i < s.attributes.length := by
      rcases Nat.lt_or_ge i s.attributes.length with h | h
      · exact h
      · rw [List.getElem?_eq_none h] at ha
        exact absurd ha (by simp)
    exact ⟨hlt, a, ha, hname, (hs.attr_ok i a ha).1⟩
  · intro i hi
    obtain ⟨a, _, ha, _⟩ := get_id_lt hs hi
    refine ⟨a.name, map_find_some_mem _ _ _ (hs.attr_ok i a ha).2, ?_⟩
    intro n hmem
    have hf := map_find_of_mem _ hs.keys_nodup n i hmem
    obtain ⟨b, hb, hname⟩ := hs.name_ok n i hf
    rw [ha] at hb
    rw [← hname, Option.some.inj hb]
  · intro n
    have h1 := hnames n
    rw [Ne, map_find_none_iff, not_not] at h1
    rw [h1]
    simp [AttributeStoreImpl.empty, map_find]

/-- Witness of `namelist_bijection`: two creates and a `get` in between, vector limit 8. -/
theorem namelist_bijection_witness :
    AttributeStoreImpl.run 8 AttributeStoreImpl.empty
        [Call.create "loop" cali_attr_type.CALI_TYPE_INT 0, Call.get_id 3,
         Call.create "function" cali_attr_type.CALI_TYPE_STRING 0]
      = some ([⟨0, "loop", cali_attr_type.CALI_TYPE_INT, 0⟩, Attribute.invalid,
               ⟨1, "function", cali_attr_type.CALI_TYPE_STRING, 0⟩],
          ⟨[⟨0, "loop", cali_attr_type.CALI_TYPE_INT, 0⟩,
            ⟨1, "function", cali_attr_type.CALI_TYPE_STRING, 0⟩],
           [("function", 1), ("loop", 0)]⟩) ∧
    [("function", 1), ("loop", 0)].length
      = [(⟨0, "loop", cali_attr_type.CALI_TYPE_INT, 0⟩ : Attribute),
         ⟨1, "function", cali_attr_type.CALI_TYPE_STRING, 0⟩].length :=
  ⟨by decide,
   (namelist_bijection (by decide : 8 ≤ SIZE_MAX)
      [Call.create "loop" cali_attr_type.CALI_TYPE_INT 0, Call.get_id 3,
       Call.create "function" cali_attr_type.CALI_TYPE_STRING 0]
      [⟨0, "loop", cali_attr_type.CALI_TYPE_INT, 0⟩, Attribute.invalid,
       ⟨1, "function", cali_attr_type.CALI_TYPE_STRING, 0⟩]
      ⟨[⟨0, "loop", cali_attr_type.CALI_TYPE_INT, 0⟩,
        ⟨1, "function", cali_attr_type.CALI_TYPE_STRING, 0⟩],
       [("function", 1), ("loop", 0)]⟩ (by decide)).2.2.1⟩

/-- C6: for every reachable store and every Attribute `a` it holds, after any further
calls `get(a.id)` and `get(a.name)` still return exactly `a`; a `create` leaves `attributes`
as it is or appends the one Attribute it returns; and a `create` on a name the store holds
goes through and leaves the whole store unchanged. -/
theorem ids_never_reassigned {max_size : Nat} (hmax : max_size ≤ SIZE_MAX)
    (s : AttributeStoreImpl) (hs : s.Reachable max_size) :
    (∀ a ∈ s.attributes, ∀ calls results s',
      AttributeStoreImpl.run max_size s calls = some (results, s') →
      s'.get_id a.id = some a ∧ s'.get_name a.name = some a) ∧
    (∀ n T P a s', s.create max_size n T P = some (a, s') →
      s'.attributes = s.attributes ∨ s'.attributes = s.attributes ++ [a]) ∧
    (∀ n T P, map_find s.namelist n ≠ none → ∃ a, s.create max_size n T P = some (a, s)) := by
  have hc := reachable_consistent hmax hs
  refine ⟨?_, ?_, ?_⟩
  · intro a ha calls results s' hrun
    obtain ⟨hs', ⟨suf, hsuf⟩, _⟩ := run_spec hmax _ _ _ _ hc hrun
    exact get_of_mem hs' (by rw [hsuf]; exact List.mem_append_left _ ha)
  · intro n T P a s' hcr
    rcases create_cases hmax hc hcr with ⟨_, _, _, rfl⟩ | ⟨_, _, _, rfl⟩
    · exact Or.inl rfl
    · exact Or.inr rfl
  · intro n T P hn
    obtain ⟨a, i, _, hf, ha, _, _⟩ := get_name_held hc hn
    exact ⟨a, create_found max_size s n T P i a hf ha⟩

/-- Witness of `ids_never_reassigned`: the store holding "loop", then a repeated and a new
`create`; the first Attribute is still what `get(0)` returns. -/
theorem ids_never_reassigned_witness :
    AttributeStoreImpl.run 8 ⟨[⟨0, "loop", cali_attr_type.CALI_TYPE_INT, 0⟩], [("loop", 0)]⟩
        [Call.create "loop" cali_attr_type.CALI_TYPE_STRING 4,
         Call.create "function" cali_attr_type.CALI_TYPE_STRING 0]
      = some ([⟨0, "loop", cali_attr_type.CALI_TYPE_INT, 0⟩,
               ⟨1, "function", cali_attr_type.CALI_TYPE_STRING, 0⟩],
          ⟨[⟨0, "loop", cali_attr_type.CALI_TYPE_INT, 0⟩,
            ⟨1, "function", cali_attr_type.CALI_TYPE_STRING, 0⟩],
           [("function", 1), ("loop", 0)]⟩) ∧
    AttributeStoreImpl.get_id
        ⟨[⟨0, "loop", cali_attr_type.CALI_TYPE_INT, 0⟩,
          ⟨1, "function", cali_attr_type.CALI_TYPE_STRING, 0⟩],
         [("function", 1), ("loop", 0)]⟩ 0
      = some ⟨0, "loop", cali_attr_type.CALI_TYPE_INT, 0⟩ :=
  ⟨by decide,
   ((ids_never_reassigned (by decide : 8 ≤ SIZE_MAX)
      ⟨[⟨0, "loop", cali_attr_type.CALI_TYPE_INT, 0⟩], [("loop", 0)]⟩
      ⟨[Call.create "loop" cali_attr_type.CALI_TYPE_INT 0],
       [⟨0, "loop", cali_attr_type.CALI_TYPE_INT, 0⟩], by decide⟩).1
      ⟨0, "loop", cali_attr_type.CALI_TYPE_INT, 0⟩ (by decide)
      [Call.create "loop" cali_attr_type.CALI_TYPE_STRING 4,
       Call.create "function" cali_attr_type.CALI_TYPE_STRING 0]
      [⟨0, "loop", cali_attr_type.CALI_TYPE_INT, 0⟩,
       ⟨1, "function", cali_attr_type.CALI_TYPE_STRING, 0⟩]
      ⟨[⟨0, "loop", cali_attr_type.CALI_TYPE_INT, 0⟩,
        ⟨1, "function", cali_attr_type.CALI_TYPE_STRING, 0⟩],
       [("function", 1), ("loop", 0)]⟩ (by decide)).1⟩

/-- C7: with `attributes.size()` converted to the 64-bit `ctx_id_t`, no Attribute returned
by a sequence of `create` calls on the empty store, and none the store then holds, has the
id `CALI_INV_ID`: a vector never holds more than `SIZE_MAX` elements, so the size taken
before a `push_back` that goes through is below `0xFFFFFFFFFFFFFFFF`. -/
theorem inv_id_never_allocated {max_size : Nat} (hmax : max_size ≤ SIZE_MAX)
    (cs : List (String × cali_attr_type × Int)) (results : List Attribute)
    (s : AttributeStoreImpl)
    (hrun : AttributeStoreImpl.run max_size AttributeStoreImpl.empty (create_calls cs)
      = some (results, s)) :
    (∀ a ∈ results, a.id ≠ CALI_INV_ID) ∧ (∀ a ∈ s.attributes, a.id ≠ CALI_INV_ID) := by
  obtain ⟨hs, _, _⟩ := run_spec hmax _ _ _ _ (consistent_empty max_size) hrun
  have hall : ∀ a ∈ s.attributes, a.id ≠ CALI_INV_ID := by
    intro a ha
    obtain ⟨hlt, _, _⟩ := mem_attributes_id_lt hs ha
    have h1 : s.attributes.length ≤ SIZE_MAX := Nat.le_trans hs.size_le hmax
    have h2 : CALI_INV_ID = SIZE_MAX := by decide
    omega
  exact ⟨fun a ha =>
    hall a (run_create_results_mem hmax cs _ _ _ (consistent_empty max_size) hrun a ha), hall⟩

/-- Witness of `inv_id_never_allocated`: a store whose vector takes two elements; the third
`create` with a new name would fail, the two that go through get ids 0 and 1. -/
theorem inv_id_never_allocated_witness :
    AttributeStoreImpl.run 2 AttributeStoreImpl.empty
        (create_calls [("loop", cali_attr_type.CALI_TYPE_INT, 0),
                       ("function", cali_attr_type.CALI_TYPE_STRING, 0)])
      = some ([⟨0, "loop", cali_attr_type.CALI_TYPE_INT, 0⟩,
               ⟨1, "function", cali_attr_type.CALI_TYPE_STRING, 0⟩],
          ⟨[⟨0, "loop", cali_attr_type.CALI_TYPE_INT, 0⟩,
            ⟨1, "function", cali_attr_type.CALI_TYPE_STRING, 0⟩],
           [("function", 1), ("loop", 0)]⟩) ∧
    (∀ a ∈ [(⟨0, "loop", cali_attr_type.CALI_TYPE_INT, 0⟩ : Attribute),
            ⟨1, "function", cali_attr_type.CALI_TYPE_STRING, 0⟩], a.id ≠ CALI_INV_ID) :=
  ⟨by decide,
   (inv_id_never_allocated (by decide : 2 ≤ SIZE_MAX)
      [("loop", cali_attr_type.CALI_TYPE_INT, 0),
       ("function", cali_attr_type.CALI_TYPE_STRING, 0)]
      [⟨0, "loop", cali_attr_type.CALI_TYPE_INT, 0⟩,
       ⟨1, "function", cali_attr_type.CALI_TYPE_STRING, 0⟩]
      ⟨[⟨0, "loop", cali_attr_type.CALI_TYPE_INT, 0⟩,
        ⟨1, "function", cali_attr_type.CALI_TYPE_STRING, 0⟩],
       [("function", 1), ("loop", 0)]⟩ (by decide)).1⟩

/-! ## Symbol lookup: lemmas -/

theorem add_symbol_attributes_vectors (sl : SymbolLookup) (symtab : Symtab) (n : Node)
    (sym_attr : SymbolAttributes) (attr : List Attribute) (data : List Variant) :
    (sl.add_symbol_attributes symtab (Entry.ref n) sym_attr attr data).2 =
      (attr ++ sym_attr.level_attr, data ++ symtab.level_data n) := by
  simp [SymbolLookup.add_symbol_attributes, SymbolAttributes.level_attr, Symtab.level_data,
    Symtab.source_file, Symtab.source_line, Entry.value]

theorem carriers_node (id i a : Nat) (d : Variant) (p : Node) :
    (Node.node i a d p).carriers id =
      if a = id then Node.node i a d p :: p.carriers id else p.carriers id := by
  by_cases h : a = id
  · simp [Node.carriers, Node.chain, Node.attribute_id, h]
  · simp [Node.carriers, Node.chain, Node.attribute_id, h]

/-- The node loop appends, for each node of the chain carrying the attribute and innermost
first, the two attributes and the two values of that node. -/
theorem unpack_nodes_vectors (symtab : Symtab) (key : Attribute) (sym_attr : SymbolAttributes) :
    ∀ (n : Node) (st : SymbolLookup × List Attribute × List Variant),
    (SymbolLookup.unpack_nodes symtab key sym_attr n st).2 =
      (st.2.1 ++ (n.carriers key.id).flatMap (fun _ => sym_attr.level_attr),
       st.2.2 ++ (n.carriers key.id).flatMap symtab.level_data) := by
  intro n
  induction n with
  | null =>
    intro st
    simp [SymbolLookup.unpack_nodes, Node.carriers, Node.chain]
  | node i a d p ih =>
    intro st
    rw [SymbolLookup.unpack_nodes, carriers_node]
    by_cases h : a = key.id
    · simp only [h, if_true]
      rw [ih, ← h, add_symbol_attributes_vectors]
      simp [List.append_assoc]
    · simp only [h, if_false]
      rw [ih]

/-- With one registered address attribute whose snapshot entry is a reference to the node
`n`: what the map loop assembles, and what `process_snapshot` hands to `make_entrylist`. -/
theorem process_snapshot_single (sl : SymbolLookup) (symtab : Symtab) (key : Attribute)
    (sym_attr : SymbolAttributes) (snapshot : SnapshotRecord) (n : Node)
    (hsym : sl.m_symtab = some symtab) (hmap : sl.m_sym_attr_map = [(key, sym_attr)])
    (hentry : snapshot.get key = Entry.ref n) :
    (SymbolLookup.unpack_map symtab snapshot sl.m_sym_attr_map (sl, [], [])).2 =
      ((n.carriers key.id).flatMap (fun _ => sym_attr.level_attr),
       (n.carriers key.id).flatMap symtab.level_data) ∧
    (sl.process_snapshot snapshot).2 =
      if n.carriers key.id = [] then none
      else some (((n.carriers key.id).flatMap (fun _ => sym_attr.level_attr)).reverse,
                 ((n.carriers key.id).flatMap symtab.level_data).reverse) := by
  have hasm : (SymbolLookup.unpack_map symtab snapshot sl.m_sym_attr_map (sl, [], [])).2 =
      ((n.carriers key.id).flatMap (fun _ => sym_attr.level_attr),
       (n.carriers key.id).flatMap symtab.level_data) := by
    rw [hmap]
    simp only [SymbolLookup.unpack_map, hentry, Entry.node, Entry.is_immediate]
    by_cases hn : n = Node.null
    · simp [hn, Node.carriers, Node.chain]
    · simp only [hn, ne_eq, not_false_eq_true, if_true]
      rw [unpack_nodes_vectors]
      simp
  refine ⟨hasm, ?_⟩
  simp only [SymbolLookup.process_snapshot, hsym]
  have hne : sl.m_sym_attr_map.isEmpty = false := by rw [hmap]; rfl
  simp only [hne, Bool.false_eq_true, if_false]
  rw [hasm]
  cases hc : n.carriers key.id with
  | nil => simp
  | cons m ms => simp [SymbolAttributes.level_attr]

/-! ## Symbol lookup: claims -/

/-- C9, as stated, fails: for the address attribute `callsite` with an outer level at
`a.c:42` and an inner level at `b.c:7`, `process_snapshot` hands `make_entrylist` the
entries line(outer), file(outer), line(inner), file(inner), not file(outer), line(outer),
file(inner), line(inner). -/
theorem scenario4_order_counterexample :
    (example_lookup.process_snapshot example_snapshot).2 =
      some ([example_sym_attr.line_attr, example_sym_attr.file_attr,
             example_sym_attr.line_attr, example_sym_attr.file_attr],
            [Variant.uint 42, Variant.str "a.c", Variant.uint 7, Variant.str "b.c"]) ∧
    (example_lookup.process_snapshot example_snapshot).2 ≠
      some ([example_sym_attr.file_attr, example_sym_attr.line_attr,
             example_sym_attr.file_attr, example_sym_attr.line_attr],
            [Variant.str "a.c", Variant.uint 42, Variant.str "b.c", Variant.uint 7]) := by
  decide

/-- C9, amended: with one registered address attribute whose snapshot entry is a node
reference with two levels carrying it (`inner` below `outer`), `process_snapshot` hands
`make_entrylist` the entries in the order line(outer), file(outer), line(inner),
file(inner): the levels outer first, and within a level the line before the file. -/
theorem scenario4_order (sl : SymbolLookup) (symtab : Symtab) (key : Attribute)
    (sym_attr : SymbolAttributes) (snapshot : SnapshotRecord) (n inner outer : Node)
    (hsym : sl.m_symtab = some symtab) (hmap : sl.m_sym_attr_map = [(key, sym_attr)])
    (hentry : snapshot.get key = Entry.ref n)
    (hlevels : n.carriers key.id = [inner, outer]) :
    (sl.process_snapshot snapshot).2 =
      some ([sym_attr.line_attr, sym_attr.file_attr, sym_attr.line_attr, sym_attr.file_attr],
            [Variant.uint (symtab.source_line outer.data.to_uint),
             Variant.str (symtab.source_file outer.data.to_uint),
             Variant.uint (symtab.source_line inner.data.to_uint),
             Variant.str (symtab.source_file inner.data.to_uint)]) := by
  rw [(process_snapshot_single sl symtab key sym_attr snapshot n hsym hmap hentry).2, hlevels]
  simp [SymbolAttributes.level_attr, Symtab.level_data]

/-- Witness of `scenario4_order`: the example path, inner level `callsite=8192`, outer
level `callsite=4096`. -/
theorem scenario4_order_witness :
    example_node.carriers example_addr_attr.id = [example_node, example_outer] ∧
    (example_lookup.process_snapshot example_snapshot).2 =
      some ([example_sym_attr.line_attr, example_sym_attr.file_attr,
             example_sym_attr.line_attr, example_sym_attr.file_attr],
            [Variant.uint (example_symtab.source_line example_outer.data.to_uint),
             Variant.str (example_symtab.source_file example_outer.data.to_uint),
             Variant.uint (example_symtab.source_line example_node.data.to_uint),
             Variant.str (example_symtab.source_file example_node.data.to_uint)]) :=
  ⟨by decide,
   scenario4_order example_lookup example_symtab example_addr_attr example_sym_attr
     example_snapshot example_node example_node example_outer rfl rfl rfl (by decide)⟩

/-- C10: with one registered address attribute whose snapshot entry is a reference to the
node `n`, and `levels` the nodes of the chain of `n` carrying the attribute listed
root-to-leaf: while assembling, the loop appends the entries of the levels innermost first
(file then line of each), and after the reversal `make_entrylist` receives them grouped per
node in root-to-leaf order, the entries of the first level first and those of the last level
last (line then file of each); it is not called when no node carries the attribute. -/
theorem snapshot_levels_root_to_leaf (sl : SymbolLookup) (symtab : Symtab) (key : Attribute)
    (sym_attr : SymbolAttributes) (snapshot : SnapshotRecord) (n : Node) (levels : List Node)
    (hsym : sl.m_symtab = some symtab) (hmap : sl.m_sym_attr_map = [(key, sym_attr)])
    (hentry : snapshot.get key = Entry.ref n)
    (hlevels : levels = (n.carriers key.id).reverse) :
    (SymbolLookup.unpack_map symtab snapshot sl.m_sym_attr_map (sl, [], [])).2 =
      (levels.reverse.flatMap (fun _ => [sym_attr.file_attr, sym_attr.line_attr]),
       levels.reverse.flatMap (fun m =>
         [Variant.str (symtab.source_file m.data.to_uint),
          Variant.uint (symtab.source_line m.data.to_uint)])) ∧
    (sl.process_snapshot snapshot).2 =
      if levels = [] then none
      else some (levels.flatMap (fun _ => [sym_attr.line_attr, sym_attr.file_attr]),
                 levels.flatMap (fun m =>
                   [Variant.uint (symtab.source_line m.data.to_uint),
                    Variant.str (symtab.source_file m.data.to_uint)])) := by
  obtain ⟨h1, h2⟩ := process_snapshot_single sl symtab key sym_attr snapshot n hsym hmap hentry
  have hrev : levels.reverse = n.carriers key.id := by rw [hlevels, List.reverse_reverse]
  refine ⟨?_, ?_⟩
  · rw [h1, hrev]
    rfl
  · rw [h2, ← hrev]
    by_cases hl : levels = []
    · simp [hl]
    · simp only [hl, List.reverse_eq_nil_iff, if_false]
      rw [List.reverse_flatMap, List.reverse_flatMap, List.reverse_reverse]
      rfl

/-- Witness of `snapshot_levels_root_to_leaf`: the example path with its two levels. -/
theorem snapshot_levels_root_to_leaf_witness :
    [example_outer, example_node]
      = (example_node.carriers example_addr_attr.id).reverse ∧
    (SymbolLookup.unpack_map example_symtab example_snapshot example_lookup.m_sym_attr_map
        (example_lookup, [], [])).2.2 =
      [Variant.str "b.c", Variant.uint 7, Variant.str "a.c", Variant.uint 42] ∧
    (example_lookup.process_snapshot example_snapshot).2.map Prod.snd =
      some [Variant.uint 42, Variant.str "a.c", Variant.uint 7, Variant.str "b.c"] :=
  have h := snapshot_levels_root_to_leaf example_lookup example_symtab example_addr_attr
    example_sym_attr example_snapshot example_node
    [example_outer, example_node]
    rfl rfl rfl (by decide)
  ⟨by decide, by rw [h.1]; decide, by rw [h.2]; decide⟩

/-! ## Two threads in `AttributeStore::create`: lemmas -/

theorem create_eq_create_after_find (max_size : Nat) (s : AttributeStoreImpl) (name : String)
    (type : cali_attr_type) (properties : Int) :
    s.create max_size name type properties =
      s.create_after_find max_size name type properties (map_find s.namelist name) := rfl

theorem create_after_find_first {max_size : Nat} (hmax : max_size ≤ SIZE_MAX)
    (s0 : AttributeStoreImpl) (name : String) (type : cali_attr_type) (properties : Int)
    (hroom : s0.attributes.length < max_size) :
    s0.create_after_find max_size name type properties none =
      some (first_attr s0 name type properties, store_after s0 name type properties) := by
  have hmod : s0.attributes.length % ID_MOD = s0.attributes.length :=
    Nat.mod_eq_of_lt (size_lt_id_mod hmax (Nat.le_of_lt hroom))
  simp [AttributeStoreImpl.create_after_find, push_back, hroom, hmod, first_attr, store_after]

theorem map_find_store_after (s0 : AttributeStoreImpl) (name : String) (type : cali_attr_type)
    (properties : Int) (hnew : map_find s0.namelist name = none) :
    map_find (store_after s0 name type properties).namelist name
      = some s0.attributes.length := by
  simp [store_after, map_find_insert _ _ _ hnew]

theorem create_after_find_second (max_size : Nat)
    (s0 : AttributeStoreImpl) (name : String) (type : cali_attr_type) (properties : Int) :
    (store_after s0 name type properties).create_after_find max_size name type properties
        (some s0.attributes.length) =
      some (first_attr s0 name type properties, store_after s0 name type properties) := by
  simp [AttributeStoreImpl.create_after_find, store_after]

theorem inv_init (s0 : AttributeStoreImpl) (name : String) (type : cali_attr_type)
    (properties : Int) : (Sys.init s0).Inv s0 name type properties where
  store := Or.inl rfl
  readers := rfl
  writer := by simp [Sys.init, Pc.in_lock]
  excl := by simp [Sys.init, Pc.in_lock]
  checked := by simp [Sys.init]
  created := by simp [Sys.init]
  done := by simp [Sys.init]

/-- What the steps of a thread do, by where the thread stands. -/
theorem step_cases {max_size : Nat} {name : String} {type : cali_attr_type} {properties : Int}
    {st st' : Sys} {t : Bool} (h : st.step max_size name type properties t = some st') :
    (st.pc t = Pc.start ∧ st.lock.writer = false ∧ st.lock.readers = 0 ∧
      st'.store = st.store ∧ st'.lock = { st.lock with writer := true } ∧
      st'.pc = fun t' => if t' = t then Pc.locked else st.pc t') ∨
    (st.pc t = Pc.locked ∧ st'.store = st.store ∧ st'.lock = st.lock ∧
      st'.pc = fun t' =>
        if t' = t then Pc.checked (map_find st.store.namelist name) else st.pc t') ∨
    (∃ it a s', st.pc t = Pc.checked it ∧
      st.store.create_after_find max_size name type properties it = some (a, s') ∧
      st'.store = s' ∧ st'.lock = st.lock ∧
      st'.pc = fun t' => if t' = t then Pc.created a else st.pc t') ∨
    (∃ a, st.pc t = Pc.created a ∧ st'.store = st.store ∧ st'.lock = st.lock.unlock ∧
      st'.pc = fun t' => if t' = t then Pc.done a else st.pc t') := by
  unfold Sys.step at h
  cases hpc : st.pc t with
  | start =>
    simp only [hpc] at h
    cases hl : st.lock.wlock with
    | none => simp [hl] at h
    | some l =>
      simp only [hl, Option.some.injEq] at h
      have hw : st.lock.writer = false ∧ st.lock.readers = 0 ∧
          l = { st.lock with writer := true } := by
        unfold SigsafeRWLock.wlock at hl
        by_cases hc : st.lock.writer = false ∧ st.lock.readers = 0
        · rw [if_pos hc] at hl
          exact ⟨hc.1, hc.2, (Option.some.inj hl).symm⟩
        · simp [hc] at hl
      left
      subst h
      exact ⟨rfl, hw.1, hw.2.1, rfl, hw.2.2, rfl⟩
  | locked =>
    simp only [hpc, Option.some.injEq] at h
    right; left
    subst h
    exact ⟨rfl, rfl, rfl, rfl⟩
  | checked it =>
    simp only [hpc] at h
    cases hc : st.store.create_after_find max_size name type properties it with
    | none => simp [hc] at h
    | some r =>
      obtain ⟨a, s'⟩ := r
      simp only [hc, Option.some.injEq] at h
      right; right; left
      subst h
      exact ⟨it, a, s', rfl, hc, rfl, rfl, rfl⟩
  | created a =>
    simp only [hpc, Option.some.injEq] at h
    right; right; right
    subst h
    exact ⟨a, rfl, rfl, rfl, rfl⟩
  | done a => simp [hpc] at h

theorem create_after_find_inv {max_size : Nat} (hmax : max_size ≤ SIZE_MAX)
    {s0 : AttributeStoreImpl} {name : String} {type : cali_attr_type} {properties : Int}
    (hnew : map_find s0.namelist name = none) (hroom : s0.attributes.length < max_size)
    {st : Sys} (hinv : st.Inv s0 name type properties) {t : Bool} {it : Option Nat}
    (hpc : st.pc t = Pc.checked it) {a : Attribute} {s' : AttributeStoreImpl}
    (hc : st.store.create_after_find max_size name type properties it = some (a, s')) :
    a = first_attr s0 name type properties ∧ s' = store_after s0 name type properties := by
  have hit := hinv.checked t it hpc
  rcases hinv.store with hs | hs
  · rw [hs, hnew] at hit
    rw [hs, hit, create_after_find_first hmax s0 name type properties hroom] at hc
    simp only [Option.some.injEq, Prod.mk.injEq] at hc
    exact ⟨hc.1.symm, hc.2.symm⟩
  · rw [hs, map_find_store_after s0 name type properties hnew] at hit
    rw [hs, hit, create_after_find_second] at hc
    simp only [Option.some.injEq, Prod.mk.injEq] at hc
    exact ⟨hc.1.symm, hc.2.symm⟩

/-- Every step of either thread keeps the invariant. -/
theorem step_inv {max_size : Nat} (hmax : max_size ≤ SIZE_MAX)
    {s0 : AttributeStoreImpl} {name : String} {type : cali_attr_type} {properties : Int}
    (hnew : map_find s0.namelist name = none) (hroom : s0.attributes.length < max_size)
    {st st' : Sys} {t : Bool} (hinv : st.Inv s0 name type properties)
    (h : st.step max_size name type properties t = some st') :
    st'.Inv s0 name type properties := by
  have hother : ∀ (p : Pc) (t1 : Bool), t1 ≠ t →
      (fun t' => if t' = t then p else st.pc t') t1 = st.pc t1 := by
    intro p t1 h1
    simp [h1]
  have hself : ∀ (p : Pc), (fun t' => if t' = t then p else st.pc t') t = p := by
    intro p
    simp
  rcases step_cases h with ⟨hpc, hw, _, hs, hl, hp⟩ | ⟨hpc, hs, hl, hp⟩ |
    ⟨it, a, s', hpc, hc, hs, hl, hp⟩ | ⟨a, hpc, hs, hl, hp⟩
  · -- `wlock()` taken
    have hnone : ∀ t1, (st.pc t1).in_lock = false := by
      intro t1
      by_contra hne
      have : st.lock.writer = true := hinv.writer.mpr ⟨t1, by simpa using hne⟩
      rw [hw] at this
      exact absurd this (by simp)
    have honly : ∀ t1, (st'.pc t1).in_lock = true → t1 = t := by
      intro t1 h1
      by_contra hne
      rw [hp, hother _ t1 hne, hnone t1] at h1
      exact absurd h1 (by simp)
    refine ⟨hs ▸ hinv.store, by rw [hl]; exact hinv.readers, ?_, ?_, ?_, ?_, ?_⟩
    · rw [hl]
      simp only [true_iff]
      exact ⟨t, by rw [hp, hself]; rfl⟩
    · intro t1 t2 h1 h2
      rw [honly t1 h1, honly t2 h2]
    · intro t1 it h1
      by_cases hne : t1 = t
      · rw [hne, hp, hself] at h1
        exact absurd h1 (by simp)
      · rw [hp, hother _ t1 hne] at h1
        rw [hs]
        exact hinv.checked t1 it h1
    · intro t1 b h1
      by_cases hne : t1 = t
      · rw [hne, hp, hself] at h1
        exact absurd h1 (by simp)
      · rw [hp, hother _ t1 hne] at h1
        rw [hs]
        exact hinv.created t1 b h1
    · intro t1 b h1
      by_cases hne : t1 = t
      · rw [hne, hp, hself] at h1
        exact absurd h1 (by simp)
      · rw [hp, hother _ t1 hne] at h1
        rw [hs]
        exact hinv.done t1 b h1
  · -- `namelist.find(name)` evaluated
    have hin : (st.pc t).in_lock = true := by rw [hpc]; rfl
    have honly : ∀ t1, (st'.pc t1).in_lock = true → t1 = t := by
      intro t1 h1
      by_contra hne
      rw [hp, hother _ t1 hne] at h1
      exact hne (hinv.excl t1 t h1 hin)
    refine ⟨hs ▸ hinv.store, by rw [hl]; exact hinv.readers, ?_, ?_, ?_, ?_, ?_⟩
    · rw [hl, hinv.writer]
      exact ⟨fun _ => ⟨t, by rw [hp, hself]; rfl⟩, fun _ => ⟨t, hin⟩⟩
    · intro t1 t2 h1 h2
      rw [honly t1 h1, honly t2 h2]
    · intro t1 it h1
      by_cases hne : t1 = t
      · rw [hne, hp, hself] at h1
        rw [hs]
        injection h1 with h1
        exact h1.symm
      · rw [hp, hother _ t1 hne] at h1
        rw [hs]
        exact hinv.checked t1 it h1
    · intro t1 b h1
      by_cases hne : t1 = t
      · rw [hne, hp, hself] at h1
        exact absurd h1 (by simp)
      · rw [hp, hother _ t1 hne] at h1
        rw [hs]
        exact hinv.created t1 b h1
    · intro t1 b h1
      by_cases hne : t1 = t
      · rw [hne, hp, hself] at h1
        exact absurd h1 (by simp)
      · rw [hp, hother _ t1 hne] at h1
        rw [hs]
        exact hinv.done t1 b h1
  · -- the check of `it` and the insertion
    obtain ⟨ha, hs'⟩ := create_after_find_inv hmax hnew hroom hinv hpc hc
    have hin : (st.pc t).in_lock = true := by rw [hpc]; rfl
    have honly : ∀ t1, (st'.pc t1).in_lock = true → t1 = t := by
      intro t1 h1
      by_contra hne
      rw [hp, hother _ t1 hne] at h1
      exact hne (hinv.excl t1 t h1 hin)
    have hstore : st'.store = store_after s0 name type properties := by rw [hs, hs']
    refine ⟨Or.inr hstore, by rw [hl]; exact hinv.readers, ?_, ?_, ?_, ?_, ?_⟩
    · rw [hl, hinv.writer]
      exact ⟨fun _ => ⟨t, by rw [hp, hself]; rfl⟩, fun _ => ⟨t, hin⟩⟩
    · intro t1 t2 h1 h2
      rw [honly t1 h1, honly t2 h2]
    · intro t1 it1 h1
      have h2 : (st'.pc t1).in_lock = true := by rw [h1]; rfl
      rw [honly t1 h2, hp, hself] at h1
      exact absurd h1 (by simp)
    · intro t1 b h1
      have h2 : (st'.pc t1).in_lock = true := by rw [h1]; rfl
      rw [honly t1 h2, hp, hself] at h1
      injection h1 with h1
      exact ⟨by rw [← h1, ha], hstore⟩
    · intro t1 b h1
      by_cases hne : t1 = t
      · rw [hne, hp, hself] at h1
        exact absurd h1 (by simp)
      · rw [hp, hother _ t1 hne] at h1
        exact ⟨(hinv.done t1 b h1).1, hstore⟩
  · -- `unlock()`
    have hin : (st.pc t).in_lock = true := by rw [hpc]; rfl
    have hnone : ∀ t1, (st'.pc t1).in_lock = false := by
      intro t1
      by_cases hne : t1 = t
      · rw [hne, hp, hself]; rfl
      · by_contra h1
        rw [hp, hother _ t1 hne] at h1
        exact hne (hinv.excl t1 t (by simpa using h1) hin)
    have hwr : st.lock.writer = true := hinv.writer.mpr ⟨t, hin⟩
    have hlock : st'.lock = { st.lock with writer := false } := by
      rw [hl]
      simp [SigsafeRWLock.unlock, hwr]
    refine ⟨hs ▸ hinv.store, by rw [hlock]; exact hinv.readers, ?_, ?_, ?_, ?_, ?_⟩
    · rw [hlock]
      constructor
      · intro hf
        exact absurd hf (by simp)
      · rintro ⟨t1, h1⟩
        rw [hnone t1] at h1
        exact absurd h1 (by simp)
    · intro t1 t2 h1
      rw [hnone t1] at h1
      exact absurd h1 (by simp)
    · intro t1 it1 h1
      have h2 : (st'.pc t1).in_lock = true := by rw [h1]; rfl
      rw [hnone t1] at h2
      exact absurd h2 (by simp)
    · intro t1 b h1
      have h2 : (st'.pc t1).in_lock = true := by rw [h1]; rfl
      rw [hnone t1] at h2
      exact absurd h2 (by simp)
    · intro t1 b h1
      by_cases hne : t1 = t
      · rw [hne, hp, hself] at h1
        injection h1 with h1
        rw [hs, ← h1]
        exact hinv.created t a hpc
      · rw [hp, hother _ t1 hne] at h1
        rw [hs]
        exact hinv.done t1 b h1

/-- Every interleaving keeps the invariant. -/
theorem exec_inv {max_size : Nat} (hmax : max_size ≤ SIZE_MAX)
    {s0 : AttributeStoreImpl} {name : String} {type : cali_attr_type} {properties : Int}
    (hnew : map_find s0.namelist name = none) (hroom : s0.attributes.length < max_size) :
    ∀ (sched : List Bool) (st st' : Sys), st.Inv s0 name type properties →
    Sys.exec max_size name type properties st sched = some st' →
    st'.Inv s0 name type properties := by
  intro sched
  induction sched with
  | nil =>
    intro st st' hinv h
    simp only [Sys.exec, Option.some.injEq] at h
    exact h ▸ hinv
  | cons t sched ih =>
    intro st st' hinv h
    simp only [Sys.exec] at h
    cases hstep : st.step max_size name type properties t with
    | none => simp [hstep] at h
    | some st1 =>
      simp only [hstep] at h
      exact ih st1 st' (step_inv hmax hnew hroom hinv hstep) h

/-- No deadlock: while a call has not returned, some thread can step. -/
theorem inv_progress {max_size : Nat} (hmax : max_size ≤ SIZE_MAX)
    {s0 : AttributeStoreImpl} {name : String} {type : cali_attr_type} {properties : Int}
    (hnew : map_find s0.namelist name = none) (hroom : s0.attributes.length < max_size)
    {st : Sys} (hinv : st.Inv s0 name type properties)
    (hrun : ¬ ((st.pc false).is_done = true ∧ (st.pc true).is_done = true)) :
    ∃ t, (st.step max_size name type properties t).isSome = true := by
  have hmove : ∀ t, (st.pc t).in_lock = true →
      (st.step max_size name type properties t).isSome = true := by
    intro t hin
    cases hpc : st.pc t with
    | start => rw [hpc] at hin; exact absurd hin (by simp [Pc.in_lock])
    | locked => simp [Sys.step, hpc]
    | checked it =>
      have hit := hinv.checked t it hpc
      rcases hinv.store with hs | hs
      · rw [hs, hnew] at hit
        simp [Sys.step, hpc, hs, hit, create_after_find_first hmax s0 name type properties hroom]
      · rw [hs, map_find_store_after s0 name type properties hnew] at hit
        simp [Sys.step, hpc, hs, hit, create_after_find_second]
    | created a => simp [Sys.step, hpc]
    | done a => rw [hpc] at hin; exact absurd hin (by simp [Pc.in_lock])
  by_cases hex : ∃ t, (st.pc t).in_lock = true
  · obtain ⟨t, hin⟩ := hex
    exact ⟨t, hmove t hin⟩
  · have hw : st.lock.writer = false := by
      cases hwr : st.lock.writer with
      | false => rfl
      | true => exact absurd (hinv.writer.mp hwr) hex
    have hstart : ∀ t, (st.pc t).is_done = false → st.pc t = Pc.start := by
      intro t hd
      cases hpc : st.pc t with
      | start => rfl
      | locked => exact absurd ⟨t, by rw [hpc]; rfl⟩ hex
      | checked it => exact absurd ⟨t, by rw [hpc]; rfl⟩ hex
      | created a => exact absurd ⟨t, by rw [hpc]; rfl⟩ hex
      | done a => rw [hpc] at hd; exact absurd hd (by simp [Pc.is_done])
    have hgo : ∀ t, st.pc t = Pc.start →
        (st.step max_size name type properties t).isSome = true := by
      intro t hpc
      simp [Sys.step, hpc, SigsafeRWLock.wlock, hw, hinv.readers]
    by_cases h0 : (st.pc false).is_done = true
    · by_cases h1 : (st.pc true).is_done = true
      · exact absurd ⟨h0, h1⟩ hrun
      · exact ⟨true, hgo true (hstart true (by simpa using h1))⟩
    · exact ⟨false, hgo false (hstart false (by simpa using h0))⟩

/-- One interleaving that runs both calls to their return: thread `false` first. -/
theorem exec_sequential {max_size : Nat} (hmax : max_size ≤ SIZE_MAX)
    (s0 : AttributeStoreImpl) (name : String) (type : cali_attr_type) (properties : Int)
    (hnew : map_find s0.namelist name = none) (hroom : s0.attributes.length < max_size) :
    ∃ st, Sys.exec max_size name type properties (Sys.init s0)
        [false, false, false, false, true, true, true, true] = some st ∧
      (st.pc false).is_done = true ∧ (st.pc true).is_done = true := by
  simp [Sys.exec, Sys.step, Sys.init, SigsafeRWLock.wlock, SigsafeRWLock.unlock, hnew,
    create_after_find_first hmax s0 name type properties hroom,
    map_find_store_after s0 name type properties hnew, create_after_find_second, Pc.is_done]

/-! ## Two threads in `AttributeStore::create`: claim -/

/-- C8: two threads call `AttributeStore::create(name, type, properties)` on a store that
does not hold `name` and has room for one more attribute. In every state of every
interleaving a thread between `wlock()` and `unlock()`, where the check and the insertion
run, is inside the write lock, and the two threads are never both there; the store is the
initial one or has grown by one attribute; a thread can step as long as a call has not
returned; and once both calls have returned, both return the same Attribute, the one a
single `create` on the initial store returns, the store is the one that call leaves (one
attribute longer), and the lock is free. Some interleaving runs both calls to their
return. -/
theorem concurrent_first_create {max_size : Nat} (hmax : max_size ≤ SIZE_MAX)
    (s0 : AttributeStoreImpl) (name : String) (type : cali_attr_type) (properties : Int)
    (hnew : map_find s0.namelist name = none) (hroom : s0.attributes.length < max_size) :
    (∀ sched st,
      Sys.exec max_size name type properties (Sys.init s0) sched = some st →
      (∀ t, (st.pc t).in_lock = true → st.lock.writer = true) ∧
      ¬ ((st.pc false).in_lock = true ∧ (st.pc true).in_lock = true) ∧
      (st.store = s0 ∨ st.store.attributes.length = s0.attributes.length + 1) ∧
      (¬ ((st.pc false).is_done = true ∧ (st.pc true).is_done = true) →
        ∃ t, (st.step max_size name type properties t).isSome = true) ∧
      ((st.pc false).is_done = true → (st.pc true).is_done = true →
        ∃ a, st.pc false = Pc.done a ∧ st.pc true = Pc.done a ∧
          s0.create max_size name type properties = some (a, st.store) ∧
          st.store.attributes = s0.attributes ++ [a] ∧
          st.store.attributes.length = s0.attributes.length + 1 ∧
          st.lock.writer = false)) ∧
    (∃ sched st,
      Sys.exec max_size name type properties (Sys.init s0) sched = some st ∧
      (st.pc false).is_done = true ∧ (st.pc true).is_done = true) := by
  refine ⟨?_, ?_⟩
  · intro sched st hexec
    have hinv := exec_inv hmax hnew hroom sched _ _ (inv_init s0 name type properties) hexec
    refine ⟨?_, ?_, ?_, ?_, ?_⟩
    · intro t hin
      exact hinv.writer.mpr ⟨t, hin⟩
    · rintro ⟨h0, h1⟩
      exact absurd (hinv.excl false true h0 h1) (by simp)
    · rcases hinv.store with hs | hs
      · exact Or.inl hs
      · right
        rw [hs]
        simp [store_after]
    · exact inv_progress hmax hnew hroom hinv
    · intro h0 h1
      have hdone : ∀ t, (st.pc t).is_done = true → ∃ a, st.pc t = Pc.done a := by
        intro t hd
        cases hpc : st.pc t with
        | done a => exact ⟨a, rfl⟩
        | start => rw [hpc] at hd; exact absurd hd (by simp [Pc.is_done])
        | locked => rw [hpc] at hd; exact absurd hd (by simp [Pc.is_done])
        | checked it => rw [hpc] at hd; exact absurd hd (by simp [Pc.is_done])
        | created a => rw [hpc] at hd; exact absurd hd (by simp [Pc.is_done])
      obtain ⟨a0, hp0⟩ := hdone false h0
      obtain ⟨a1, hp1⟩ := hdone true h1
      obtain ⟨ha0, hs⟩ := hinv.done false a0 hp0
      obtain ⟨ha1, _⟩ := hinv.done true a1 hp1
      refine ⟨first_attr s0 name type properties, by rw [hp0, ha0], by rw [hp1, ha1],
        ?_, ?_, ?_, ?_⟩
      · rw [create_eq_create_after_find, hnew,
          create_after_find_first hmax s0 name type properties hroom, hs]
      · rw [hs]
        rfl
      · rw [hs]
        simp [store_after]
      · cases hwr : st.lock.writer with
        | false => rfl
        | true =>
          obtain ⟨t, hin⟩ := hinv.writer.mp hwr
          cases t with
          | false => rw [hp0] at hin; exact absurd hin (by simp [Pc.in_lock])
          | true => rw [hp1] at hin; exact absurd hin (by simp [Pc.in_lock])
  · obtain ⟨st, h, h0, h1⟩ := exec_sequential hmax s0 name type properties hnew hroom
    exact ⟨_, st, h, h0, h1⟩

/-- Witness of `concurrent_first_create`: the empty store, `create("iteration", uint,
default)` from both threads, vector limit 8. -/
theorem concurrent_first_create_witness :
    map_find AttributeStoreImpl.empty.namelist "iteration" = none ∧
    AttributeStoreImpl.empty.attributes.length < 8 ∧
    ∃ sched st,
      Sys.exec 8 "iteration" cali_attr_type.CALI_TYPE_UINT CALI_ATTR_DEFAULT
        (Sys.init AttributeStoreImpl.empty) sched = some st ∧
      (st.pc false).is_done = true ∧ (st.pc true).is_done = true :=
  ⟨by decide, by decide,
   (concurrent_first_create (by decide : 8 ≤ SIZE_MAX) AttributeStoreImpl.empty "iteration"
      cali_attr_type.CALI_TYPE_UINT CALI_ATTR_DEFAULT (by decide) (by decide)).2⟩

/-! ## Symbol lookup: the two vectors stay paired -/

theorem add_symbol_attributes_entry (sl : SymbolLookup) (symtab : Symtab) (e : Entry)
    (sym_attr : SymbolAttributes) (attr : List Attribute) (data : List Variant) :
    (sl.add_symbol_attributes symtab e sym_attr attr data).2 =
      (attr ++ [sym_attr.file_attr, sym_attr.line_attr],
       data ++ [Variant.str (symtab.source_file e.value.to_uint),
                Variant.uint (symtab.source_line e.value.to_uint)]) := by
  simp [SymbolLookup.add_symbol_attributes, Symtab.source_file, Symtab.source_line]

/-- The map loop appends to `attr` the attributes and to `data` the values of the pairs of
its calls of `add_symbol_attributes`, call by call. -/
theorem unpack_map_vectors (symtab : Symtab) (snapshot : SnapshotRecord) :
    ∀ (m : List (Attribute × SymbolAttributes))
      (st : SymbolLookup × List Attribute × List Variant),
    (SymbolLookup.unpack_map symtab snapshot m st).2 =
      (st.2.1 ++ ((SymbolLookup.lookups snapshot m).flatMap symtab.pushed_pairs).map Prod.fst,
       st.2.2 ++ ((SymbolLookup.lookups snapshot m).flatMap symtab.pushed_pairs).map Prod.snd)
    := by
  intro m
  induction m with
  | nil =>
    intro st
    simp [SymbolLookup.unpack_map, SymbolLookup.lookups]
  | cons it rest ih =>
    intro st
    rw [SymbolLookup.unpack_map, SymbolLookup.lookups]
    by_cases hn : (snapshot.get it.1).node ≠ Node.null
    · simp only [hn, ne_eq, not_false_eq_true, if_true]
      rw [ih, unpack_nodes_vectors]
      simp only [List.flatMap_append, List.map_append, List.append_assoc, List.flatMap_map,
        List.map_flatMap]
      rfl
    · by_cases hi : (snapshot.get it.1).is_immediate = true
      · simp only [hn, hi, if_true, if_false]
        rw [ih, add_symbol_attributes_entry]
        simp [Symtab.pushed_pairs, List.append_assoc]
      · simp only [hn, hi, if_false]
        rw [ih]
        simp

theorem zip_map_fst_snd {α β : Type} (l : List (α × β)) :
    List.zip (l.map Prod.fst) (l.map Prod.snd) = l := by
  induction l with
  | nil => rfl
  | cons p l ih => simp [ih]

/-! ## Symbol lookup: claim on the pairing -/

/-- C11: for every snapshot and every symbol-attribute map, the vectors `attr` and `data`
that the map loop assembles have equal length and hold, index by index, the pairs that the
calls of `add_symbol_attributes` appended (file attribute with the file name as a string,
line attribute with the line number as an unsigned integer); and when `process_snapshot`
calls `make_entrylist`, the two vectors it hands over are the reversed assembled ones, of
equal length, and index by index they hold the same pairs in reverse order: reversing the
two vectors separately leaves every attribute with its own value. -/
theorem lockstep_pairing (sl : SymbolLookup) (symtab : Symtab) (snapshot : SnapshotRecord)
    (hsym : sl.m_symtab = some symtab) :
    (SymbolLookup.unpack_map symtab snapshot sl.m_sym_attr_map (sl, [], [])).2.1.length =
      (SymbolLookup.unpack_map symtab snapshot sl.m_sym_attr_map (sl, [], [])).2.2.length ∧
    List.zip (SymbolLookup.unpack_map symtab snapshot sl.m_sym_attr_map (sl, [], [])).2.1
        (SymbolLookup.unpack_map symtab snapshot sl.m_sym_attr_map (sl, [], [])).2.2 =
      (SymbolLookup.lookups snapshot sl.m_sym_attr_map).flatMap symtab.pushed_pairs ∧
    (∀ attr data, (sl.process_snapshot snapshot).2 = some (attr, data) →
      attr.length = data.length ∧
      attr = (SymbolLookup.unpack_map symtab snapshot sl.m_sym_attr_map (sl, [], [])).2.1.reverse ∧
      data = (SymbolLookup.unpack_map symtab snapshot sl.m_sym_attr_map (sl, [], [])).2.2.reverse ∧
      List.zip attr data =
        ((SymbolLookup.lookups snapshot sl.m_sym_attr_map).flatMap symtab.pushed_pairs).reverse)
    := by
  have hv := unpack_map_vectors symtab snapshot sl.m_sym_attr_map (sl, [], [])
  simp only [List.nil_append] at hv
  have h1 : (SymbolLookup.unpack_map symtab snapshot sl.m_sym_attr_map (sl, [], [])).2.1 =
      ((SymbolLookup.lookups snapshot sl.m_sym_attr_map).flatMap symtab.pushed_pairs).map
        Prod.fst := by rw [hv]
  have h2 : (SymbolLookup.unpack_map symtab snapshot sl.m_sym_attr_map (sl, [], [])).2.2 =
      ((SymbolLookup.lookups snapshot sl.m_sym_attr_map).flatMap symtab.pushed_pairs).map
        Prod.snd := by rw [hv]
  refine ⟨by rw [h1, h2]; simp, by rw [h1, h2, zip_map_fst_snd], ?_⟩
  intro attr data hps
  simp only [SymbolLookup.process_snapshot, hsym] at hps
  by_cases hemp : sl.m_sym_attr_map.isEmpty = true
  · simp [hemp] at hps
  · simp only [hemp, Bool.false_eq_true, if_false, List.length_reverse, gt_iff_lt] at hps
    by_cases hlen :
        0 < (SymbolLookup.unpack_map symtab snapshot sl.m_sym_attr_map (sl, [], [])).2.1.length
    · rw [if_pos hlen] at hps
      simp only [Option.some.injEq, Prod.mk.injEq] at hps
      obtain ⟨ha, hd⟩ := hps
      refine ⟨?_, ha.symm, hd.symm, ?_⟩
      · rw [← ha, ← hd, h1, h2]
        simp
      · rw [← ha, ← hd, h1, h2, ← List.map_reverse, ← List.map_reverse, zip_map_fst_snd]
    · rw [if_neg hlen] at hps
      exact absurd hps (by simp)

/-- Witness of `lockstep_pairing`: the example snapshot with its two levels. -/
theorem lockstep_pairing_witness :
    example_lookup.m_symtab = some example_symtab ∧
    (example_lookup.process_snapshot example_snapshot).2 =
      some ([example_sym_attr.line_attr, example_sym_attr.file_attr,
             example_sym_attr.line_attr, example_sym_attr.file_attr],
            [Variant.uint 42, Variant.str "a.c", Variant.uint 7, Variant.str "b.c"]) ∧
    [example_sym_attr.line_attr, example_sym_attr.file_attr,
     example_sym_attr.line_attr, example_sym_attr.file_attr].length =
      [Variant.uint 42, Variant.str "a.c", Variant.uint 7, Variant.str "b.c"].length :=
  ⟨rfl, by decide,
   ((lockstep_pairing example_lookup example_symtab example_snapshot rfl).2.2
      [example_sym_attr.line_attr, example_sym_attr.file_attr,
       example_sym_attr.line_attr, example_sym_attr.file_attr]
      [Variant.uint 42, Variant.str "a.c", Variant.uint 7, Variant.str "b.c"]
      (by decide)).1⟩

/-! ## `Csv.cpp`: writing -/

theorem write_string_cons (spec : CsvSpec) (c : Char) (str : List Char) :
    spec.write_string (c :: str) =
      (if c ∈ spec.m_esc_chars then [spec.m_esc, c] else [c]) ++ spec.write_string str := rfl

theorem write_string_append (spec : CsvSpec) (s t : List Char) :
    spec.write_string (s ++ t) = spec.write_string s ++ spec.write_string t := by
  induction s with
  | nil => rfl
  | cons c s ih => simp [write_string_cons, ih]

theorem write_string_flatMap (spec : CsvSpec) (s : List Char) :
    spec.write_string s =
      s.flatMap (fun c => if c ∈ spec.m_esc_chars then [spec.m_esc, c] else [c]) := by
  induction s with
  | nil => rfl
  | cons c s ih => rw [write_string_cons, ih, List.flatMap_cons]

theorem write_string_length (spec : CsvSpec) (s : List Char) :
    (spec.write_string s).length =
      s.length + s.countP (fun c => decide (c ∈ spec.m_esc_chars)) := by
  induction s with
  | nil => rfl
  | cons c s ih =>
    rw [write_string_cons, List.length_append, ih, List.countP_cons]
    by_cases h : c ∈ spec.m_esc_chars
    · simp [h]; omega
    · simp [h]; omega

theorem commas_escaped_append (a b : List Char) (ha : commas_escaped a)
    (hb : commas_escaped b) : commas_escaped (a ++ b) := by
  intro i hi
  by_cases hlt : i < a.length
  · rw [List.getElem?_append_left hlt] at hi
    obtain ⟨j, hj, hjv⟩ := ha i hi
    refine ⟨j, hj, ?_⟩
    rw [List.getElem?_append_left (by omega)]
    exact hjv
  · rw [List.getElem?_append_right (Nat.le_of_not_lt hlt)] at hi
    obtain ⟨j, hj, hjv⟩ := hb _ hi
    refine ⟨a.length + j, by omega, ?_⟩
    rw [List.getElem?_append_right (by omega)]
    simpa using hjv

theorem write_string_commas_escaped (s : List Char) :
    commas_escaped (CaliperCsvSpec.write_string s) := by
  induction s with
  | nil =>
    intro i hi
    simp [CsvSpec.write_string] at hi
  | cons c s ih =>
    rw [write_string_cons]
    apply commas_escaped_append _ _ _ ih
    intro i hi
    by_cases h : c ∈ CaliperCsvSpec.m_esc_chars
    · simp only [h, if_true] at hi
      match i, hi with
      | 0, hi =>
        simp only [List.getElem?_cons_zero, Option.some.injEq] at hi
        exact absurd hi (by decide)
      | 1, _ => exact ⟨0, rfl, by simp [h]; rfl⟩
      | k + 2, hi => simp at hi
    · simp only [h, if_false] at hi
      match i, hi with
      | 0, hi =>
        simp only [List.getElem?_cons_zero, Option.some.injEq] at hi
        rw [hi] at h
        exact absurd (by decide) h
      | k + 1, hi => simp at hi

/-- C13: for every string `s`, `CsvSpec::write_string` of the object `CaliperCsvSpec` emits
the characters of `s` in order, each `\` and each `,` with the escape character `\` right
before it and every other character as it is; the output is as long as `s` plus the number
of its `\` and `,`; and every `,` of the output has a `\` right before it. -/
theorem write_string_escapes (s : List Char) :
    CaliperCsvSpec.write_string s =
      s.flatMap (fun c => if c = backslash ∨ c = ',' then [backslash, c] else [c]) ∧
    (CaliperCsvSpec.write_string s).length =
      s.length + s.countP (fun c => decide (c = backslash ∨ c = ',')) ∧
    commas_escaped (CaliperCsvSpec.write_string s) := by
  have hmem : ∀ c : Char, c ∈ CaliperCsvSpec.m_esc_chars ↔ (c = backslash ∨ c = ',') := by
    intro c
    simp [CaliperCsvSpec]
  refine ⟨?_, ?_, write_string_commas_escaped s⟩
  · rw [write_string_flatMap]
    congr 1
    funext c
    simp only [hmem]
    rfl
  · rw [write_string_length]
    congr 2
    funext c
    simp only [hmem]

/-- The decoder undoes `write_string` whenever the escape character is itself among the
characters to escape. -/
theorem decode_write_string (spec : CsvSpec) (hesc : spec.m_esc ∈ spec.m_esc_chars)
    (s : List Char) : spec.decode (spec.write_string s) = s := by
  induction s with
  | nil => rfl
  | cons c s ih =>
    rw [write_string_cons]
    by_cases h : c ∈ spec.m_esc_chars
    · simp only [h, if_true, List.cons_append, List.nil_append]
      rw [CsvSpec.decode]
      simp [ih]
    · have hne : c ≠ spec.m_esc := fun e => h (e ▸ hesc)
      simp only [h, if_false, List.cons_append, List.nil_append]
      cases hw : spec.write_string s with
      | nil =>
        rw [hw] at ih
        rw [CsvSpec.decode]
        simp [hne, ← ih, CsvSpec.decode]
      | cons d out =>
        rw [CsvSpec.decode]
        simp only [hne, if_false]
        rw [← hw, ih]

/-- C17: the decoder that drops an escape character and copies the character after it
literally, and copies every other character, gives back `s` from `write_string(s)` for
every string `s`; hence `write_string` is injective. -/
theorem write_string_lossless :
    (∀ s, CaliperCsvSpec.decode (CaliperCsvSpec.write_string s) = s) ∧
    Function.Injective CaliperCsvSpec.write_string := by
  have h : ∀ s, CaliperCsvSpec.decode (CaliperCsvSpec.write_string s) = s :=
    decode_write_string CaliperCsvSpec (by decide)
  refine ⟨h, ?_⟩
  intro s t hst
  rw [← h s, ← h t, hst]

/-! ## `Csv.cpp`: reading -/

theorem segments_ne_nil (sep : Char) (list : List Char) : segments sep list ≠ [] := by
  cases list with
  | nil => simp [segments]
  | cons c list =>
    by_cases h : c = sep
    · simp [segments, h]
    · simp [segments, h]

theorem segments_head_tail (sep : Char) (list : List Char) :
    segments sep list = (segments sep list).headD [] :: (segments sep list).tail := by
  cases h : segments sep list with
  | nil => exact absurd h (segments_ne_nil sep list)
  | cons a l => rfl

theorem segments_length (sep : Char) (list : List Char) :
    (segments sep list).length = 1 + list.count sep := by
  induction list with
  | nil => rfl
  | cons c list ih =>
    by_cases h : c = sep
    · simp [segments, h, ih]; omega
    · have hne : (c == sep) = false := by simpa using h
      rw [segments, if_neg h, List.count_cons, hne]
      rw [segments_head_tail sep list] at ih
      simp only [List.length_cons] at ih
      simp only [List.length_cons, Bool.false_eq_true, if_false]
      omega

theorem segments_intercalate (sep : Char) (list : List Char) :
    List.intercalate [sep] (segments sep list) = list := by
  induction list with
  | nil => rfl
  | cons c list ih =>
    rw [segments_head_tail sep list] at ih
    by_cases h : c = sep
    · rw [segments, if_pos h, segments_head_tail sep list]
      simp only [List.intercalate, List.intersperse, List.flatten, List.nil_append,
        List.singleton_append] at ih ⊢
      rw [ih, h]
    · rw [segments, if_neg h]
      cases ht : (segments sep list).tail with
      | nil =>
        rw [ht] at ih
        simp only [List.intercalate, List.intersperse, List.flatten, List.append_nil] at ih ⊢
        rw [ih]
      | cons a l =>
        rw [ht] at ih
        simp only [List.intercalate, List.intersperse, List.flatten, List.cons_append] at ih ⊢
        rw [ih]

theorem segments_no_sep (sep : Char) (list : List Char) :
    ∀ seg ∈ segments sep list, sep ∉ seg := by
  induction list with
  | nil => simp [segments]
  | cons c list ih =>
    intro seg hseg
    by_cases h : c = sep
    · rw [segments, if_pos h] at hseg
      rcases List.mem_cons.mp hseg with e | e
      · simp [e]
      · exact ih seg e
    · rw [segments, if_neg h] at hseg
      rcases List.mem_cons.mp hseg with e | e
      · rw [e]
        intro hmem
        rcases List.mem_cons.mp hmem with e1 | e1
        · exact h e1.symm
        · have : (segments sep list).headD [] ∈ segments sep list := by
            rw [segments_head_tail sep list]
            simp
          exact ih _ this e1
      · exact ih seg (List.mem_of_mem_tail e)

/-- On input without a double quote the loop of `split` closes a field at each separator
and copies into the current field the characters that are not white space. -/
theorem split_loop_no_quote (spec : CsvSpec) (sep : Char) :
    ∀ (list : List Char) (vec : List (List Char)) (str : List Char), dquote ∉ list →
    spec.split_loop sep false list vec str =
      some (vec ++ [str ++ ((segments sep list).headD []).filter (fun c => !isspace c)] ++
        ((segments sep list).tail).map (List.filter (fun c => !isspace c))) := by
  intro list
  induction list with
  | nil =>
    intro vec str _
    simp [CsvSpec.split_loop, segments]
  | cons c list ih =>
    intro vec str hq
    have hq' : dquote ∉ list := fun h => hq (List.mem_cons_of_mem _ h)
    have hc : c ≠ dquote := fun h => hq (by rw [h]; exact List.mem_cons_self _ _)
    rw [CsvSpec.split_loop]
    by_cases hs : c = sep
    · rw [if_pos hs, ih _ _ hq', segments, if_pos hs]
      simp only [List.headD_cons, List.tail_cons, List.filter_nil, List.append_nil,
        List.nil_append]
      rw [segments_head_tail sep list]
      simp
    · rw [if_neg hs, if_neg hc, segments, if_neg hs]
      by_cases hsp : isspace c = true
      · simp [hsp, ih _ _ hq']
      · simp [hsp, ih _ _ hq']

/-- C16: for every input without a double quote and every separator character,
`CsvSpec::split` returns the fields, one per piece of the input between consecutive
separators (the pieces joined with the separator give back the input and hold no
separator), each field being the characters of its piece that are not white space, in
their order; there are `1 +` (number of separators in the input) fields, never none. -/
theorem split_unquoted (spec : CsvSpec) (list : List Char) (sep : Char)
    (hq : dquote ∉ list) :
    ∃ fields, spec.split list sep = some fields ∧
      fields = (segments sep list).map (List.filter (fun c => !isspace c)) ∧
      fields.length = 1 + list.count sep ∧ fields ≠ [] ∧
      List.intercalate [sep] (segments sep list) = list ∧
      (∀ seg ∈ segments sep list, sep ∉ seg) := by
  have hsplit : spec.split list sep =
      some ((segments sep list).map (List.filter (fun c => !isspace c))) := by
    rw [CsvSpec.split, split_loop_no_quote spec sep list [] [] hq]
    conv_rhs => rw [segments_head_tail sep list]
    simp
  refine ⟨_, hsplit, rfl, ?_, ?_, segments_intercalate sep list, segments_no_sep sep list⟩
  · rw [List.length_map, segments_length]
  · intro h
    exact segments_ne_nil sep list (List.map_eq_nil_iff.mp h)

/-- Witness of `split_unquoted`: the input `a b,c` with the separator `,`. -/
theorem split_unquoted_witness :
    dquote ∉ "a b,c".toList ∧
    ∃ fields, CaliperCsvSpec.split "a b,c".toList ',' = some fields ∧
      fields = (segments ',' "a b,c".toList).map (List.filter (fun c => !isspace c)) ∧
      fields.length = 1 + "a b,c".toList.count ',' ∧ fields ≠ [] ∧
      List.intercalate [','] (segments ',' "a b,c".toList) = "a b,c".toList ∧
      (∀ seg ∈ segments ',' "a b,c".toList, ',' ∉ seg) :=
  ⟨by decide, split_unquoted CaliperCsvSpec "a b,c".toList ',' (by decide)⟩

theorem segments_append_sep (sep : Char) (f rest : List Char) (hf : sep ∉ f) :
    segments sep (f ++ sep :: rest) = f :: segments sep rest := by
  induction f with
  | nil => simp [segments]
  | cons c f ih =>
    have hc : c ≠ sep := fun e => hf (by rw [e]; exact List.mem_cons_self _ _)
    have hf' : sep ∉ f := fun h => hf (List.mem_cons_of_mem _ h)
    rw [List.cons_append, segments, if_neg hc, ih hf']
    rfl

theorem segments_fields (sep : Char) (fs : List (List Char)) (h : ∀ f ∈ fs, sep ∉ f) :
    segments sep (fs.flatMap (fun f => f ++ [sep])) = fs ++ [[]] := by
  induction fs with
  | nil => rfl
  | cons f fs ih =>
    rw [List.flatMap_cons, List.append_assoc, List.singleton_append,
      segments_append_sep sep f _ (h f (List.mem_cons_self _ _)),
      ih (fun g hg => h g (List.mem_cons_of_mem _ hg))]
    rfl

set_option maxRecDepth 100000 in
theorem hex_text_facts : ∀ b, b < 256 →
    (hex_text b ≠ [] ∧
     (hex_text b).all (fun c => decide (c ≠ ':') && decide (c ≠ dquote) && !isspace c) = true ∧
     stoul16 (hex_text b) = some b) := by
  decide

theorem field_text_plain (f : Option Nat) (hf : ∀ b, f = some b → b < 256) :
    ∀ c ∈ field_text f, c ≠ ':' ∧ c ≠ dquote ∧ isspace c = false := by
  intro c hc
  cases f with
  | none => simp [field_text] at hc
  | some b =>
    have h := (hex_text_facts b (hf b rfl)).2.1
    rw [List.all_eq_true] at h
    have h1 := h c hc
    simp only [Bool.and_eq_true, decide_eq_true_eq, Bool.not_eq_true'] at h1
    exact ⟨h1.1.1, h1.1.2, h1.2⟩

theorem read_usr_fields_cons (s : List Char) (fields : List (List Char)) :
    read_usr_fields (s :: fields) =
      if s.length ≠ 0 then
        match stoul16 s with
        | none => none
        | some v =>
          match read_usr_fields fields with
          | none => none
          | some data => some (v % 256 :: data)
      else read_usr_fields fields := rfl

theorem reduceOption_map_some (bytes : List Nat) : (bytes.map some).reduceOption = bytes := by
  induction bytes with
  | nil => rfl
  | cons b bytes ih => rw [List.map_cons, List.reduceOption_cons_of_some, ih]

theorem read_usr_fields_texts (fields : List (Option Nat))
    (hf : ∀ b, some b ∈ fields → b < 256) :
    read_usr_fields (fields.map field_text ++ [[]]) = some fields.reduceOption := by
  induction fields with
  | nil => simp [read_usr_fields]
  | cons f fields ih =>
    have ih' := ih (fun b hb => hf b (List.mem_cons_of_mem _ hb))
    cases f with
    | none =>
      rw [List.map_cons, List.cons_append, read_usr_fields_cons,
        List.reduceOption_cons_of_none]
      simp only [field_text, List.length_nil, ne_eq, not_true_eq_false, if_false]
      exact ih'
    | some b =>
      have hb := hex_text_facts b (hf b (List.mem_cons_self _ _))
      have hlen : (hex_text b).length ≠ 0 := by
        intro h
        exact hb.1 (List.length_eq_zero.mp h)
      have hlt : b % 256 = b := Nat.mod_eq_of_lt (hf b (List.mem_cons_self _ _))
      rw [List.map_cons, List.cons_append, read_usr_fields_cons,
        List.reduceOption_cons_of_some, ih']
      simp only [field_text, hlen, ne_eq, not_false_eq_true, if_true, hb.2.2, hlt]

/-- The text of fields, each followed by `:`, read as user-defined data: the bytes of the
fields that are not empty. -/
theorem read_data_usr_fields (fields : List (Option Nat))
    (hf : ∀ b, some b ∈ fields → b < 256) :
    CaliperCsvSpec.read_data_usr (fields.flatMap (fun f => field_text f ++ [':'])) =
      some fields.reduceOption := by
  have hplain : ∀ f ∈ fields, ∀ c ∈ field_text f, c ≠ ':' ∧ c ≠ dquote ∧ isspace c = false :=
    fun f hmem => field_text_plain f (fun b e => hf b (e ▸ hmem))
  have hq : dquote ∉ fields.flatMap (fun f => field_text f ++ [':']) := by
    intro h
    obtain ⟨f, hmem, hc⟩ := List.mem_flatMap.mp h
    rcases List.mem_append.mp hc with h1 | h1
    · exact (hplain f hmem _ h1).2.1 rfl
    · simp at h1
      exact absurd h1 (by decide)
  have hseg : segments ':' (fields.flatMap (fun f => field_text f ++ [':'])) =
      fields.map field_text ++ [[]] := by
    have := segments_fields ':' (fields.map field_text) (by
      intro g hg
      obtain ⟨f, hmem, rfl⟩ := List.mem_map.mp hg
      intro hc
      exact (hplain f hmem _ hc).1 rfl)
    rw [List.flatMap_map] at this
    exact this
  obtain ⟨flds, hsplit, hflds, _⟩ := split_unquoted CaliperCsvSpec _ ':' hq
  have hfilter : (fields.map field_text ++ [[]]).map (List.filter (fun c => !isspace c)) =
      fields.map field_text ++ [[]] := by
    rw [List.map_append, List.map_map]
    congr 1
    apply List.map_congr_left
    intro f hmem
    simp only [Function.comp]
    rw [List.filter_eq_self]
    intro c hc
    simp [(hplain f hmem c hc).2.2]
  rw [hseg, hfilter] at hflds
  have hd : CaliperCsvSpec.m_delim.headD (Char.ofNat 0) = ':' := rfl
  rw [CsvSpec.read_data_usr, hd, hsplit, hflds]
  exact read_usr_fields_texts fields hf

/-- C14: for every sequence of bytes, the text that writes each byte as a hexadecimal
number followed by the delimiter `:` is read by `read_data` for `CALI_TYPE_USR` as exactly
that sequence of bytes; and so is any text of such fields in which further fields are
empty, the empty fields being skipped. -/
theorem read_data_usr_hex (bytes : List Nat) (hbytes : ∀ b ∈ bytes, b < 256) :
    CaliperCsvSpec.read_data_usr (usr_text bytes) = some bytes ∧
    (∀ fields : List (Option Nat), fields.reduceOption = bytes →
      CaliperCsvSpec.read_data_usr (fields.flatMap (fun f => field_text f ++ [':']))
        = some bytes) := by
  have hgen : ∀ fields : List (Option Nat), fields.reduceOption = bytes →
      CaliperCsvSpec.read_data_usr (fields.flatMap (fun f => field_text f ++ [':']))
        = some bytes := by
    intro fields hred
    rw [← hred]
    apply read_data_usr_fields
    intro b hb
    apply hbytes
    rw [← hred]
    exact List.reduceOption_mem_iff.mpr hb
  refine ⟨?_, hgen⟩
  have := hgen (bytes.map some) (reduceOption_map_some bytes)
  rw [List.flatMap_map] at this
  exact this

theorem read_data_usr_hex_witness :
    (∀ b ∈ [0x42, 0, 0, 0x2a, 0xf, 0xa0, 2, 0], b < 256) ∧
    usr_text [0x42, 0, 0, 0x2a, 0xf, 0xa0, 2, 0] = "42:0:0:2a:f:a0:2:0:".toList ∧
    CaliperCsvSpec.read_data_usr "42:0:0:2a:f:a0:2:0:".toList =
      some [0x42, 0, 0, 0x2a, 0xf, 0xa0, 2, 0] :=
  ⟨by decide, by decide,
   (by decide : usr_text [0x42, 0, 0, 0x2a, 0xf, 0xa0, 2, 0] = "42:0:0:2a:f:a0:2:0:".toList) ▸
     (read_data_usr_hex [0x42, 0, 0, 0x2a, 0xf, 0xa0, 2, 0] (by decide)).1⟩

/-- Inside a quoted string that is closed, the loop of `split` copies nothing of a run of
characters that holds neither the escape character nor a double quote. -/
theorem split_loop_quoted_unescaped (spec : CsvSpec) (sep : Char) (rest : List Char)
    (vec : List (List Char)) (str : List Char) :
    ∀ (q : List Char), dquote ∉ q → spec.m_esc ∉ q →
    spec.split_loop sep true (q ++ dquote :: rest) vec str =
      spec.split_loop sep false rest vec str := by
  intro q
  induction q with
  | nil =>
    intro _ _
    cases rest with
    | nil => simp [CsvSpec.split_loop]
    | cons d l => simp [CsvSpec.split_loop]
  | cons c q ih =>
    intro hq he
    have hc : c ≠ dquote := fun e => hq (by rw [e]; exact List.mem_cons_self _ _)
    have hce : c ≠ spec.m_esc := fun e => he (by rw [← e]; exact List.mem_cons_self _ _)
    obtain ⟨d, l, hdl⟩ : ∃ d l, q ++ dquote :: rest = d :: l := by
      cases q with
      | nil => exact ⟨dquote, rest, rfl⟩
      | cons d q' => exact ⟨d, q' ++ dquote :: rest, rfl⟩
    rw [List.cons_append, hdl, CsvSpec.split_loop, if_neg hc, if_neg hce, ← hdl]
    exact ih (fun h => hq (List.mem_cons_of_mem _ h)) (fun h => he (List.mem_cons_of_mem _ h))

/-- C15, on the code: `split` of the quoted string `"a b,c"` with the separator `,` returns
one empty field and not the field `a b,c`: inside the quotes only a character that follows
the escape character is appended, every other character is dropped; the same text with the
escape character before each character is read as the field `a b,c`. -/
theorem split_quoted_drops_text :
    CaliperCsvSpec.split [dquote, 'a', ' ', 'b', ',', 'c', dquote] ',' = some [[]] ∧
    CaliperCsvSpec.split [dquote, 'a', ' ', 'b', ',', 'c', dquote] ','
      ≠ some ["a b,c".toList] ∧
    CaliperCsvSpec.split [dquote, backslash, 'a', backslash, ' ', backslash, 'b', backslash,
        ',', backslash, 'c', dquote] ',' = some ["a b,c".toList] := by
  decide

theorem segments_self (sep : Char) (v : List Char) (hv : sep ∉ v) : segments sep v = [v] := by
  induction v with
  | nil => rfl
  | cons c v ih =>
    have hc : c ≠ sep := fun e => hv (by rw [e]; exact List.mem_cons_self _ _)
    rw [segments, if_neg hc, ih (fun h => hv (List.mem_cons_of_mem _ h))]
    rfl

theorem segments_of_intercalate (sep : Char) (v : List Char) (vs : List (List Char))
    (h : ∀ w ∈ v :: vs, sep ∉ w) :
    segments sep (List.intercalate [sep] (v :: vs)) = v :: vs := by
  induction vs generalizing v with
  | nil =>
    simp only [List.intercalate, List.intersperse, List.flatten, List.append_nil]
    exact segments_self sep v (h v (List.mem_cons_self _ _))
  | cons w ws ih =>
    have hrec := ih w (fun x hx => h x (List.mem_cons_of_mem _ hx))
    simp only [List.intercalate, List.intersperse, List.flatten, List.singleton_append]
      at hrec ⊢
    rw [segments_append_sep sep v _ (h v (List.mem_cons_self _ _)), hrec]

theorem mem_intercalate_cons (sep c : Char) (v : List Char) (vs : List (List Char))
    (h : c ∈ List.intercalate [sep] (v :: vs)) : c = sep ∨ ∃ w ∈ v :: vs, c ∈ w := by
  induction vs generalizing v with
  | nil =>
    simp only [List.intercalate, List.intersperse, List.flatten, List.append_nil] at h
    exact Or.inr ⟨v, List.mem_cons_self _ _, h⟩
  | cons w ws ih =>
    have hrec := ih w
    simp only [List.intercalate, List.intersperse, List.flatten, List.singleton_append,
      List.mem_append, List.mem_cons] at hrec h
    rcases h with h1 | h1 | h1
    · exact Or.inr ⟨v, List.mem_cons_self _ _, h1⟩
    · exact Or.inl h1
    · rcases hrec h1 with h2 | ⟨x, hx, hcx⟩
      · exact Or.inl h2
      · exact Or.inr ⟨x, List.mem_cons_of_mem _ (by simpa using hx), hcx⟩

theorem write_string_plain (spec : CsvSpec) (v : List Char)
    (hv : ∀ c ∈ v, c ∉ spec.m_esc_chars) : spec.write_string v = v := by
  induction v with
  | nil => rfl
  | cons c v ih =>
    rw [write_string_cons, if_neg (hv c (List.mem_cons_self _ _)),
      ih (fun d hd => hv d (List.mem_cons_of_mem _ hd))]
    rfl

/-- What does hold of writing and reading back: values without white space, double quote,
`,` and `\` come back from `split` as they were written. -/
theorem split_join_plain (v : List Char) (vs : List (List Char))
    (h : ∀ w ∈ v :: vs, ∀ c ∈ w,
      c ≠ ',' ∧ c ≠ backslash ∧ c ≠ dquote ∧ isspace c = false) :
    CaliperCsvSpec.split (CaliperCsvSpec.join_values (v :: vs)) ',' = some (v :: vs) := by
  have hw : (v :: vs).map CaliperCsvSpec.write_string = v :: vs := by
    conv_rhs => rw [← List.map_id (v :: vs)]
    apply List.map_congr_left
    intro w hmem
    apply write_string_plain
    intro c hc hesc
    have hcc := h w hmem c hc
    simp only [CaliperCsvSpec, List.mem_cons, List.mem_singleton, List.not_mem_nil,
      or_false] at hesc
    rcases hesc with e | e
    · exact hcc.2.1 e
    · exact hcc.1 e
  have hjoin : CaliperCsvSpec.join_values (v :: vs) = List.intercalate [','] (v :: vs) := by
    rw [CsvSpec.join_values, hw]
    rfl
  have hq : dquote ∉ List.intercalate [','] (v :: vs) := by
    intro hmem
    rcases mem_intercalate_cons ',' dquote v vs hmem with h1 | ⟨w, hw1, hd⟩
    · exact absurd h1 (by decide)
    · exact (h w hw1 dquote hd).2.2.1 rfl
  obtain ⟨fields, hsplit, hfields, _⟩ :=
    split_unquoted CaliperCsvSpec (List.intercalate [','] (v :: vs)) ',' hq
  rw [hjoin, hsplit, hfields,
    segments_of_intercalate ',' v vs (fun w hmem hc => (h w hmem ',' hc).1 rfl)]
  congr 1
  conv_rhs => rw [← List.map_id (v :: vs)]
  apply List.map_congr_left
  intro w hmem
  show List.filter (fun c => !isspace c) w = w
  rw [List.filter_eq_self]
  intro c hc
  simp [(h w hmem c hc).2.2.2]

/-- C18, on the code: the value `a,b` is written as `a\,b`, and `split` of that line with
the separator `,` returns the two fields `a\` and `b`, not the field `a,b`; the value `a\b`
is written as `a\\b` and comes back as the field `a\\b`; and the line `write_record` writes
for the entry `name=a,b` is split in two as well. Outside a quoted string `split` gives the
escape character no meaning. -/
theorem split_join_escaped_value :
    CaliperCsvSpec.join_values ["a,b".toList] = ['a', backslash, ',', 'b'] ∧
    CaliperCsvSpec.split (CaliperCsvSpec.join_values ["a,b".toList]) ','
      = some [['a', backslash], ['b']] ∧
    CaliperCsvSpec.split (CaliperCsvSpec.join_values ["a,b".toList]) ','
      ≠ some ["a,b".toList] ∧
    CaliperCsvSpec.split (CaliperCsvSpec.join_values [['a', backslash, 'b']]) ','
      = some [['a', backslash, backslash, 'b']] ∧
    CaliperCsvSpec.split (CaliperCsvSpec.write_record [("name".toList, "a,b".toList)]) ','
      = some [['n', 'a', 'm', 'e', '=', 'a', backslash], ['b']] := by
  decide

/-! ## Symbol lookup: the diagnostics of `finish_log` -/

theorem sym_map_find_some_iff (m : List (Attribute × SymbolAttributes)) (k : Attribute) :
    (sym_map_find m k).isSome = true ↔ ∃ e ∈ m, e.1.id = k.id := by
  induction m with
  | nil => simp [sym_map_find]
  | cons e m ih =>
    obtain ⟨k', v'⟩ := e
    by_cases h : k.id = k'.id
    · simp [sym_map_find, h]
    · have h' : ¬ k'.id = k.id := fun e => h e.symm
      simp [sym_map_find, h, h', ih]

theorem sym_map_insert_mem (m : List (Attribute × SymbolAttributes)) (k : Attribute)
    (v : SymbolAttributes) :
    ∀ e ∈ sym_map_insert m k v, e ∈ m ∨ e = (k, v) := by
  induction m with
  | nil =>
    intro e he
    simp only [sym_map_insert, List.mem_singleton] at he
    exact Or.inr he
  | cons e0 m ih =>
    obtain ⟨k', v'⟩ := e0
    intro e he
    by_cases h1 : k.id = k'.id
    · simp only [sym_map_insert, h1, if_true] at he
      exact Or.inl he
    · by_cases h2 : k.id < k'.id
      · simp only [sym_map_insert, h1, h2, if_true, if_false, List.mem_cons] at he
        rcases he with he | he | he
        · exact Or.inr he
        · exact Or.inl (by rw [he]; exact List.mem_cons_self _ _)
        · exact Or.inl (List.mem_cons_of_mem _ he)
      · simp only [sym_map_insert, h1, h2, if_false, List.mem_cons] at he
        rcases he with he | he
        · exact Or.inl (by rw [he]; exact List.mem_cons_self _ _)
        · rcases ih e he with h3 | h3
          · exact Or.inl (List.mem_cons_of_mem _ h3)
          · exact Or.inr h3

/-- The map stays in strictly increasing id order, as a `std::map` is. -/
theorem sym_map_insert_sorted (m : List (Attribute × SymbolAttributes)) (k : Attribute)
    (v : SymbolAttributes) (hm : (m.map (fun e => e.1.id)).Pairwise (fun a b => a < b)) :
    ((sym_map_insert m k v).map (fun e => e.1.id)).Pairwise (fun a b => a < b) := by
  induction m with
  | nil => simp [sym_map_insert]
  | cons e0 m ih =>
    obtain ⟨k', v'⟩ := e0
    simp only [List.map_cons, List.pairwise_cons] at hm
    by_cases h1 : k.id = k'.id
    · simp only [sym_map_insert, h1, if_true, List.map_cons, List.pairwise_cons]
      exact hm
    · by_cases h2 : k.id < k'.id
      · rw [sym_map_insert, if_neg h1, if_pos h2]
        simp only [List.map_cons, List.pairwise_cons]
        refine ⟨?_, hm⟩
        intro b hb
        rcases List.mem_cons.mp hb with hb | hb
        · rw [hb]; exact h2
        · exact Nat.lt_trans h2 (hm.1 b hb)
      · rw [sym_map_insert, if_neg h1, if_neg h2]
        simp only [List.map_cons, List.pairwise_cons]
        refine ⟨?_, ih hm.2⟩
        intro b hb
        obtain ⟨e, he, hid⟩ := List.mem_map.mp hb
        rcases sym_map_insert_mem m k v e he with h3 | h3
        · exact hm.1 b (List.mem_map.mpr ⟨e, h3, hid⟩)
        · rw [h3] at hid
          simp only at hid
          omega

theorem sorted_ids_nodup (m : List (Attribute × SymbolAttributes))
    (hm : (m.map (fun e => e.1.id)).Pairwise (fun a b => a < b)) :
    (m.map (fun e => e.1.id)).Nodup :=
  hm.imp (fun h => Nat.ne_of_lt h)

/-- What `check_attribute` keeps true of the instance: the configured names stay, every key
of the map has a configured name and was passed to `check_attribute`, and the map is in id
order. -/
theorem after_checks_inv (P : Attribute → Prop) :
    ∀ (calls : List (Caliper × Attribute)) (sl : SymbolLookup),
    (∀ ca ∈ calls, P ca.2) →
    (∀ e ∈ sl.m_sym_attr_map, e.1.name ∈ sl.m_addr_attr_names ∧ P e.1) →
    (sl.m_sym_attr_map.map (fun e => e.1.id)).Pairwise (fun a b => a < b) →
    (sl.after_checks calls).m_addr_attr_names = sl.m_addr_attr_names ∧
    (∀ e ∈ (sl.after_checks calls).m_sym_attr_map,
      e.1.name ∈ sl.m_addr_attr_names ∧ P e.1) ∧
    ((sl.after_checks calls).m_sym_attr_map.map (fun e => e.1.id)).Pairwise
      (fun a b => a < b) := by
  intro calls
  induction calls with
  | nil =>
    intro sl _ hkeys hsorted
    exact ⟨rfl, hkeys, hsorted⟩
  | cons ca calls ih =>
    intro sl hcalls hkeys hsorted
    rw [SymbolLookup.after_checks]
    have hP := hcalls ca (List.mem_cons_self _ _)
    have hrest : ∀ x ∈ calls, P x.2 := fun x hx => hcalls x (List.mem_cons_of_mem _ hx)
    by_cases hname : ca.2.name ∈ sl.m_addr_attr_names
    · have hstep : ∀ v, (∀ e ∈ sym_map_insert sl.m_sym_attr_map ca.2 v,
          e.1.name ∈ sl.m_addr_attr_names ∧ P e.1) := by
        intro v e he
        rcases sym_map_insert_mem _ _ _ e he with h1 | h1
        · exact hkeys e h1
        · rw [h1]
          exact ⟨hname, hP⟩
      have := ih (sl.check_attribute ca.1 ca.2) hrest
        (by simp only [SymbolLookup.check_attribute, hname, if_true]; exact hstep _)
        (by simp only [SymbolLookup.check_attribute, hname, if_true]
            exact sym_map_insert_sorted _ _ _ hsorted)
      simpa [SymbolLookup.check_attribute, hname] using this
    · have hsame : sl.check_attribute ca.1 ca.2 = sl := by
        simp [SymbolLookup.check_attribute, hname]
      rw [hsame]
      exact ih sl hrest hkeys hsorted

theorem post_init_loop_eq_after_checks (c : Caliper) :
    ∀ (names : List String) (sl : SymbolLookup),
    SymbolLookup.post_init_loop c names sl =
      sl.after_checks
        ((names.filter (fun s => (c.get_attribute s).is_valid)).map
          (fun s => (c, c.get_attribute s))) := by
  intro names
  induction names with
  | nil => intro sl; rfl
  | cons s names ih =>
    intro sl
    rw [SymbolLookup.post_init_loop, ih]
    by_cases h : (c.get_attribute s).is_valid = true
    · simp [h, SymbolLookup.after_checks]
    · simp [h]

/-- The body of the loop of `finish_log` writes the diagnostic for a name exactly when no
key of the map has that name, given a runtime whose valid Attributes carry the name they
are found under and differ in their ids, and a map whose keys are valid Attributes of that
runtime. -/
theorem finish_log_name_iff (sl : SymbolLookup) (c : Caliper)
    (hR1 : ∀ n, (c.get_attribute n).is_valid = true → (c.get_attribute n).name = n)
    (hR2 : ∀ n m, (c.get_attribute n).is_valid = true →
      (c.get_attribute n).id = (c.get_attribute m).id → c.get_attribute n = c.get_attribute m)
    (hb : ∀ e ∈ sl.m_sym_attr_map, e.1.is_valid = true ∧ c.get_attribute e.1.name = e.1)
    (n : String) :
    (sl.finish_log_name c n = some (LogLine.not_found n) ↔
      ¬ ∃ e ∈ sl.m_sym_attr_map, e.1.name = n) ∧
    (sl.finish_log_name c n = some (LogLine.not_found n) ∨ sl.finish_log_name c n = none) := by
  have hfound : ((c.get_attribute n).is_valid = true ∧
      (sym_map_find sl.m_sym_attr_map (c.get_attribute n)).isSome = true) ↔
      ∃ e ∈ sl.m_sym_attr_map, e.1.name = n := by
    constructor
    · rintro ⟨hv, hf⟩
      obtain ⟨e, he, hid⟩ := (sym_map_find_some_iff _ _).mp hf
      refine ⟨e, he, ?_⟩
      have h1 := hR2 n e.1.name hv (by rw [(hb e he).2]; exact hid.symm)
      rw [(hb e he).2] at h1
      rw [← h1]
      exact hR1 n hv
    · rintro ⟨e, he, hname⟩
      have hget : c.get_attribute n = e.1 := by rw [← hname]; exact (hb e he).2
      rw [hget]
      exact ⟨(hb e he).1, (sym_map_find_some_iff _ _).mpr ⟨e, he, rfl⟩⟩
  unfold SymbolLookup.finish_log_name
  by_cases hv : (c.get_attribute n).is_valid = true
  · by_cases hf : (sym_map_find sl.m_sym_attr_map (c.get_attribute n)).isSome = true
    · have hex := hfound.mp ⟨hv, hf⟩
      simp [hv, hf, hex]
    · have hex : ¬ ∃ e ∈ sl.m_sym_attr_map, e.1.name = n := fun h => hf (hfound.mpr h).2
      simp only [hv, if_true, hf]
      simp [hex]
  · have hex : ¬ ∃ e ∈ sl.m_sym_attr_map, e.1.name = n := fun h => hv (hfound.mpr h).1
    simp only [hv]
    simp [hex]

/-- A configured name without an entry makes the map smaller than the list of names: the
size comparison of `finish_log` then lets the loop run. -/
theorem sizes_differ_of_missing (sl : SymbolLookup) (c : Caliper)
    (ha : ∀ e ∈ sl.m_sym_attr_map, e.1.name ∈ sl.m_addr_attr_names)
    (hb : ∀ e ∈ sl.m_sym_attr_map, e.1.is_valid = true ∧ c.get_attribute e.1.name = e.1)
    (hc : (sl.m_sym_attr_map.map (fun e => e.1.id)).Pairwise (fun a b => a < b))
    (n : String) (hn : n ∈ sl.m_addr_attr_names)
    (hmiss : ¬ ∃ e ∈ sl.m_sym_attr_map, e.1.name = n) :
    sl.m_addr_attr_names.length ≠ sl.m_sym_attr_map.length := by
  have hnd := sorted_ids_nodup _ hc
  have hnames : (sl.m_sym_attr_map.map (fun e => e.1.name)).Nodup := by
    apply List.Nodup.map_on _ (List.Nodup.of_map _ hnd)
    intro x hx y hy hxy
    apply List.inj_on_of_nodup_map hnd hx hy
    have h1 := (hb x hx).2
    have h2 := (hb y hy).2
    rw [hxy, h2] at h1
    show x.1.id = y.1.id
    rw [h1]
  have hsub : sl.m_sym_attr_map.map (fun e => e.1.name) ⊆ sl.m_addr_attr_names.erase n := by
    intro x hx
    obtain ⟨e, he, hname⟩ := List.mem_map.mp hx
    have hne : x ≠ n := fun h => hmiss ⟨e, he, by rw [← h, ← hname]⟩
    rw [List.mem_erase_of_ne hne, ← hname]
    exact ha e he
  have hle := (List.subperm_of_subset hnames hsub).length_le
  rw [List.length_map, List.length_erase_of_mem hn] at hle
  have hpos : 0 < sl.m_addr_attr_names.length := List.length_pos_of_mem hn
  omega

theorem finish_log_mem (sl : SymbolLookup) (c : Caliper) (n : String) :
    LogLine.not_found n ∈ sl.finish_log c ↔
      (sl.m_addr_attr_names.length ≠ sl.m_sym_attr_map.length ∧
        ∃ a ∈ sl.m_addr_attr_names, sl.finish_log_name c a = some (LogLine.not_found n)) := by
  unfold SymbolLookup.finish_log
  by_cases hsz : sl.m_addr_attr_names.length ≠ sl.m_sym_attr_map.length
  · simp only [hsz, ne_eq, not_false_eq_true, if_true, List.mem_cons, List.mem_filterMap,
      true_and]
    constructor
    · rintro (h | h)
      · exact absurd h (by simp)
      · exact h
    · intro h
      exact Or.inr h
  · simp only [hsz, if_false, List.mem_cons, List.not_mem_nil, or_false, false_and, iff_false]
    intro h
    exact absurd h (by simp)

theorem of_store_get_attribute {max_size : Nat}
    {s : AttributeStoreImpl} (hs : s.Consistent max_size) (n : String) :
    ((Caliper.of_store max_size s).get_attribute n = Attribute.invalid ∧
      map_find s.namelist n = none) ∨
    ((Caliper.of_store max_size s).get_attribute n ∈ s.attributes ∧
      ((Caliper.of_store max_size s).get_attribute n).name = n) := by
  cases hf : map_find s.namelist n with
  | none =>
    left
    simp [Caliper.of_store, get_name_not_held s hf]
  | some i =>
    right
    obtain ⟨a, _, hg, _, ha, hname, _⟩ := get_name_held hs (n := n) (by simp [hf])
    simp only [Caliper.of_store, hg, Option.getD_some]
    exact ⟨List.getElem?_mem ha, hname⟩

theorem mem_attributes_valid {max_size : Nat} (hmax : max_size ≤ SIZE_MAX)
    {s : AttributeStoreImpl} (hs : s.Consistent max_size) {a : Attribute}
    (ha : a ∈ s.attributes) :
    a.is_valid = true ∧ (Caliper.of_store max_size s).get_attribute a.name = a := by
  obtain ⟨hlt, _, _⟩ := mem_attributes_id_lt hs ha
  constructor
  · have h1 : s.attributes.length ≤ SIZE_MAX := Nat.le_trans hs.size_le hmax
    have h2 : Attribute.invalid.id = SIZE_MAX := by decide
    simp only [Attribute.is_valid, decide_eq_true_eq]
    omega
  · simp [Caliper.of_store, (get_of_mem hs ha).2]

/-- C12: the service instance starts with an empty symbol-attribute map and the map is
filled by calls of `check_attribute` only, each with an Attribute of the runtime's
registry. Then for every configured name, `finish_log` writes the diagnostic "Address
attribute <name> not found!" if and only if no key of the map has that name; and a
configured name without an entry makes the two sizes differ, so the size comparison never
keeps the loop from running when a name is missing. -/
theorem finish_log_diagnoses_missing {max_size : Nat} (hmax : max_size ≤ SIZE_MAX)
    (store : AttributeStoreImpl) (hstore : store.Reachable max_size)
    (sl0 : SymbolLookup) (hempty : sl0.m_sym_attr_map = [])
    (calls : List (Caliper × Attribute)) (hcalls : ∀ ca ∈ calls, ca.2 ∈ store.attributes) :
    (sl0.after_checks calls).m_addr_attr_names = sl0.m_addr_attr_names ∧
    ∀ n ∈ sl0.m_addr_attr_names,
      (LogLine.not_found n ∈
          (sl0.after_checks calls).finish_log (Caliper.of_store max_size store) ↔
        ¬ ∃ e ∈ (sl0.after_checks calls).m_sym_attr_map, e.1.name = n) ∧
      ((¬ ∃ e ∈ (sl0.after_checks calls).m_sym_attr_map, e.1.name = n) →
        (sl0.after_checks calls).m_addr_attr_names.length ≠
          (sl0.after_checks calls).m_sym_attr_map.length) := by
  have hs := reachable_consistent hmax hstore
  obtain ⟨hnames, hkeys, hsorted⟩ := after_checks_inv (fun a => a ∈ store.attributes) calls sl0
    hcalls (by rw [hempty]; simp) (by rw [hempty]; simp)
  refine ⟨hnames, ?_⟩
  intro n hn
  have ha : ∀ e ∈ (sl0.after_checks calls).m_sym_attr_map,
      e.1.name ∈ (sl0.after_checks calls).m_addr_attr_names := by
    intro e he
    rw [hnames]
    exact (hkeys e he).1
  have hb : ∀ e ∈ (sl0.after_checks calls).m_sym_attr_map,
      e.1.is_valid = true ∧ (Caliper.of_store max_size store).get_attribute e.1.name = e.1 :=
    fun e he => mem_attributes_valid hmax hs (hkeys e he).2
  have hR1 : ∀ m, ((Caliper.of_store max_size store).get_attribute m).is_valid = true →
      ((Caliper.of_store max_size store).get_attribute m).name = m := by
    intro m hv
    rcases of_store_get_attribute hs m with ⟨h1, _⟩ | ⟨_, h1⟩
    · rw [h1] at hv
      exact absurd hv (by decide)
    · exact h1
  have hR2 : ∀ m k, ((Caliper.of_store max_size store).get_attribute m).is_valid = true →
      ((Caliper.of_store max_size store).get_attribute m).id =
        ((Caliper.of_store max_size store).get_attribute k).id →
      (Caliper.of_store max_size store).get_attribute m =
        (Caliper.of_store max_size store).get_attribute k := by
    intro m k hv hid
    rcases of_store_get_attribute hs m with ⟨h1, _⟩ | ⟨h1, _⟩
    · rw [h1] at hv
      exact absurd hv (by decide)
    · rcases of_store_get_attribute hs k with ⟨h2, _⟩ | ⟨h2, _⟩
      · rw [h2] at hid
        simp only [Attribute.is_valid, decide_eq_true_eq] at hv
        exact absurd hid hv
      · obtain ⟨_, hm1, _⟩ := mem_attributes_id_lt hs h1
        obtain ⟨_, hk1, _⟩ := mem_attributes_id_lt hs h2
        rw [hid, hk1] at hm1
        exact (Option.some.inj hm1).symm
  have hmiss := sizes_differ_of_missing (sl0.after_checks calls)
    (Caliper.of_store max_size store) ha hb hsorted n (by rw [hnames]; exact hn)
  refine ⟨?_, hmiss⟩
  rw [finish_log_mem]
  constructor
  · rintro ⟨_, a, _, hline⟩
    have hcase := (finish_log_name_iff (sl0.after_checks calls)
      (Caliper.of_store max_size store) hR1 hR2 hb a).2
    have han : a = n := by
      rcases hcase with h1 | h1
      · rw [h1] at hline
        injection hline with hline
        injection hline
      · rw [h1] at hline
        exact absurd hline (by simp)
    rw [han] at hline
    exact ((finish_log_name_iff (sl0.after_checks calls)
      (Caliper.of_store max_size store) hR1 hR2 hb n).1).mp hline
  · intro hno
    exact ⟨hmiss hno, n, by rw [hnames]; exact hn,
      ((finish_log_name_iff (sl0.after_checks calls)
        (Caliper.of_store max_size store) hR1 hR2 hb n).1).mpr hno⟩

/-- Witness of `finish_log_diagnoses_missing`: the service configured for `callsite` and
`missing`, `check_attribute` called once with the registered `callsite`: the diagnostic is
written for `missing` and not for `callsite`. -/
theorem finish_log_diagnoses_missing_witness :
    (example_configured.after_checks
        [(Caliper.of_store 8 example_store, example_addr_attr)]).finish_log
      (Caliper.of_store 8 example_store) =
      [LogLine.performed 0 0, LogLine.not_found "missing"] ∧
    (LogLine.not_found "missing" ∈
        (example_configured.after_checks
          [(Caliper.of_store 8 example_store, example_addr_attr)]).finish_log
          (Caliper.of_store 8 example_store) ↔
      ¬ ∃ e ∈ (example_configured.after_checks
          [(Caliper.of_store 8 example_store, example_addr_attr)]).m_sym_attr_map,
        e.1.name = "missing") :=
  ⟨by decide,
   ((finish_log_diagnoses_missing (by decide : 8 ≤ SIZE_MAX) example_store
      ⟨[Call.create "function" cali_attr_type.CALI_TYPE_STRING 0,
        Call.create "loop" cali_attr_type.CALI_TYPE_INT 0,
        Call.create "phase" cali_attr_type.CALI_TYPE_STRING 0,
        Call.create "callsite" cali_attr_type.CALI_TYPE_ADDR 0],
       [⟨0, "function", cali_attr_type.CALI_TYPE_STRING, 0⟩,
        ⟨1, "loop", cali_attr_type.CALI_TYPE_INT, 0⟩,
        ⟨2, "phase", cali_attr_type.CALI_TYPE_STRING, 0⟩, example_addr_attr], by decide⟩
      example_configured rfl
      [(Caliper.of_store 8 example_store, example_addr_attr)] (by decide)).2
      "missing" (by decide)).1⟩

end Caliper
